import Mathlib

/-! dedupe-bench: the deduplicating append encoder of `bench.cc`

A shallow embedding of `src/bench.cc`:

* a `string_view` is a data pointer (the cache key) together with the bytes it views;
* `size_t`/`uintptr_t` values are natural numbers, `int` values are integers, and the
  conversion `size_t → int` performed when a buffer size is stored as an offset wraps
  modulo `2^32` (`toInt`);
* `std::unordered_map<const char*, int>` is a finite partial map from keys to offsets;
* `LossyArrayMap<Hash, kNumSlots>` is its two arrays, indexed by `Fin kNumSlots`;
* the loop of `DedupWithMap` is a left fold of its body over the input values, and the
  pointer `&offsets[0]` taken before the loop is `off_out`, undefined on an empty vector.
-/

namespace DedupeBench

/-! ## Data model -/

/-- A `string_view`: `data` is the address returned by `data()` and `bytes` are the
`size()` bytes found there. -/
structure StringView where
  data : Nat
  bytes : List Nat
  deriving DecidableEq, Repr

/-- The null pointer, the value every entry of `keys_` has after `keys_ = {}`. -/
def nullptr : Nat := 0

/-- Conversion of a `size_t` to `int` (32 bits, two's complement). -/
def toInt (n : Nat) : Int :=
  if n % 2 ^ 32 < 2 ^ 31 then ((n % 2 ^ 32 : Nat) : Int) else ((n % 2 ^ 32 : Nat) : Int) - 2 ^ 32

/-- What the benchmark body leaves behind: the output buffer and the offsets vector. -/
structure Output where
  out_buf : List Nat
  offsets : List Int
  deriving DecidableEq, Repr

/-! ## `NoDedup` (lines 42-59) -/

/-- Body of the loop of `NoDedup`: record the current size, then append the value. -/
def NoDedup.step (s : Output) (v : StringView) : Output :=
  { out_buf := s.out_buf ++ v.bytes
    offsets := s.offsets ++ [toInt s.out_buf.length] }

/-- One pass of `NoDedup` over the values. -/
def NoDedup (vals : List StringView) : Output :=
  vals.foldl NoDedup.step { out_buf := [], offsets := [] }

/-! ## `DedupWithMap` (lines 63-89) -/

/-- The operations `DedupWithMap` needs from its `MapType` parameter: `reserve`, `emplace`
(returning the pair of an iterator and a flag, next to the updated map), and reading
and writing `->second` through an iterator. -/
structure MapType (M It : Type) where
  reserve : M → Nat → M
  emplace : M → Nat → Int → (It × Bool) × M
  second : M → It → Int
  setSecond : M → It → Int → M

/-- The variables of the loop of `DedupWithMap`. -/
structure LoopState (M : Type) where
  cache : M
  out_buf : List Nat
  offsets : List Int

/-- Body of the loop of `DedupWithMap` (lines 78-83). -/
def DedupWithMap.step {M It : Type} (T : MapType M It) (s : LoopState M) (v : StringView) :
    LoopState M :=
  let r := T.emplace s.cache v.data (-1)
  let ins := r.1
  if ins.2 then
    let cache := T.setSecond r.2 ins.1 (toInt s.out_buf.length)
    { cache := cache
      out_buf := s.out_buf ++ v.bytes
      offsets := s.offsets ++ [T.second cache ins.1] }
  else
    { cache := r.2
      out_buf := s.out_buf
      offsets := s.offsets ++ [T.second r.2 ins.1] }

/-- The loop of `DedupWithMap` (lines 77-84) run over the values, from a freshly
constructed cache, an empty buffer and the first element of the offsets vector onwards.
The setup of that vector before the loop, `offsets.resize(n)` and `&offsets[0]`, is
`off_out`, and the pass with it is `DedupWithMap.run`. -/
def DedupWithMap.loop {M It : Type} (T : MapType M It) (cache : M) (vals : List StringView) :
    LoopState M :=
  vals.foldl (DedupWithMap.step T) { cache := T.reserve cache 16, out_buf := [], offsets := [] }

/-- One pass of `DedupWithMap`: the buffer and the offsets after the loop. -/
def DedupWithMap {M It : Type} (T : MapType M It) (cache : M) (vals : List StringView) : Output :=
  let s := DedupWithMap.loop T cache vals
  { out_buf := s.out_buf, offsets := s.offsets }

/-! ## The exact cache: `std::unordered_map<const char*, int>` (lines 91-93) -/

/-- The contents of a `std::unordered_map<const char*, int>`. -/
def UnorderedMap : Type := Nat → Option Int

/-- A default-constructed `unordered_map`. -/
def UnorderedMap.empty : UnorderedMap := fun _ => none

/-- The call `emplace(k, off)` of `unordered_map`: inserts only when the key is absent; the
iterator returned designates the entry of `k`. -/
def UnorderedMap.emplace (m : UnorderedMap) (k : Nat) (off : Int) : (Nat × Bool) × UnorderedMap :=
  match m k with
  | some _ => ((k, false), m)
  | none => ((k, true), Function.update m k (some off))

/-- Reading `it->second`. -/
def UnorderedMap.second (m : UnorderedMap) (it : Nat) : Int :=
  (m it).getD 0

/-- The assignment `it->second = x`. -/
def UnorderedMap.setSecond (m : UnorderedMap) (it : Nat) (x : Int) : UnorderedMap :=
  match m it with
  | some _ => Function.update m it (some x)
  | none => m

/-- The class `unordered_map<const char*, int>` as a `MapType`. -/
def UnorderedMap.mapType : MapType UnorderedMap Nat where
  reserve := fun m _ => m
  emplace := UnorderedMap.emplace
  second := UnorderedMap.second
  setSecond := UnorderedMap.setSecond

/-- One pass of `DedupUnorderedMap`. -/
def DedupUnorderedMap (vals : List StringView) : Output :=
  DedupWithMap UnorderedMap.mapType UnorderedMap.empty vals

/-! ## Hash strategies (lines 96-122) -/

/-- Modelled from the spec: one bit step of the hardware checksum behind the intrinsic
`_mm_crc32_u64`, which `<nmmintrin.h>` declares and the sources do not define. The
checksum is the 32-bit cyclic-redundancy checksum CRC-32C, reflected polynomial
`0x82F63B78`, without inversion of the accumulator. -/
def crc32c_bit (crc : Nat) : Nat :=
  if crc % 2 = 1 then (crc >>> 1) ^^^ 0x82F63B78 else crc >>> 1

/-- Modelled from the spec: accumulation of one byte into a CRC-32C value, a step of the
hardware checksum missing from the sources. -/
def crc32c_u8 (crc b : Nat) : Nat :=
  crc32c_bit^[8] (crc ^^^ b)

/-- Modelled from the spec: the intrinsic `_mm_crc32_u64(crc, v)`, missing from the
sources: the 32-bit cyclic-redundancy checksum computed by the dedicated CPU instruction,
which accumulates the eight bytes of `v`, least significant first, into the low 32 bits
of `crc`. -/
def _mm_crc32_u64 (crc v : Nat) : Nat :=
  (List.range 8).foldl (fun c i => crc32c_u8 c ((v >>> (8 * i)) % 256)) (crc % 2 ^ 32)

/-- The functor `Identity`. -/
def Identity (t : Nat) : Nat := t

/-- The functor `Crc32`. -/
def Crc32 (t : Nat) : Nat := _mm_crc32_u64 0 t

/-- The functor `Crc32Shift`. -/
def Crc32Shift (t : Nat) : Nat := _mm_crc32_u64 0 t >>> 16

/-- The functor `FNV1A_PY`. -/
def FNV1A_PY (t : Nat) : Nat :=
  let seed : Nat := 0
  let PRIME : Nat := 591798841
  let hash64 : Nat := seed ^^^ 14695981039346656037
  let hash64 : Nat := ((hash64 ^^^ t) * PRIME) % 2 ^ 64
  let hash32 : Nat := (hash64 ^^^ (hash64 >>> 32)) % 2 ^ 32
  hash32 ^^^ (hash32 >>> 16)

/-- The four hash strategies the benchmark instantiates `LossyArrayMap` with. -/
inductive Hash where
  | Identity
  | Crc32
  | Crc32Shift
  | FNV1A_PY
  deriving DecidableEq, Repr

/-- The call operator of a hash strategy. -/
def Hash.call : Hash → Nat → Nat
  | .Identity => DedupeBench.Identity
  | .Crc32 => DedupeBench.Crc32
  | .Crc32Shift => DedupeBench.Crc32Shift
  | .FNV1A_PY => DedupeBench.FNV1A_PY

/-! ## The lossy cache: `LossyArrayMap<Hash, kNumSlots>` (lines 124-158) -/

/-- The two arrays of a `LossyArrayMap`. -/
structure LossyArrayMap (kNumSlots : Nat) where
  keys_ : Fin kNumSlots → Nat
  vals_ : Fin kNumSlots → Int

/-- A freshly constructed `LossyArrayMap`: `keys_ = {}` makes every key null, while `vals_`
has no initialiser, so its contents `garbage` are whatever the memory held. -/
def LossyArrayMap.init {kNumSlots : Nat} (garbage : Fin kNumSlots → Int) :
    LossyArrayMap kNumSlots :=
  { keys_ := fun _ => nullptr, vals_ := garbage }

/-- The slot `h(p) % kNumSlots` probed for a key. -/
def LossyArrayMap.slot (H : Hash) {kNumSlots : Nat} (hN : 0 < kNumSlots) (p : Nat) :
    Fin kNumSlots :=
  ⟨H.call p % kNumSlots, Nat.mod_lt _ hN⟩

/-- The method `emplace(p, off)` (lines 140-149). The iterator returned holds references to
`keys_[slot]` and `vals_[slot]`; it is represented by `slot`. -/
def LossyArrayMap.emplace (H : Hash) {kNumSlots : Nat} (hN : 0 < kNumSlots)
    (m : LossyArrayMap kNumSlots) (p : Nat) (_off : Int) :
    (Fin kNumSlots × Bool) × LossyArrayMap kNumSlots :=
  let slot := LossyArrayMap.slot H hN p
  let it := slot
  let need_insert : Bool := decide (m.keys_ it ≠ p)
  if need_insert then
    ((it, need_insert), { m with keys_ := Function.update m.keys_ it p })
  else
    ((it, need_insert), m)

/-- Reading `it->first` of a `LossyArrayMap::iterator`. -/
def LossyArrayMap.first {kNumSlots : Nat} (m : LossyArrayMap kNumSlots) (it : Fin kNumSlots) :
    Nat :=
  m.keys_ it

/-- Reading `it->second` of a `LossyArrayMap::iterator`. -/
def LossyArrayMap.second {kNumSlots : Nat} (m : LossyArrayMap kNumSlots) (it : Fin kNumSlots) :
    Int :=
  m.vals_ it

/-- The assignment `it->second = x` through a `LossyArrayMap::iterator`. -/
def LossyArrayMap.setSecond {kNumSlots : Nat} (m : LossyArrayMap kNumSlots)
    (it : Fin kNumSlots) (x : Int) : LossyArrayMap kNumSlots :=
  { m with vals_ := Function.update m.vals_ it x }

/-- The class `LossyArrayMap<Hash, kNumSlots>` as a `MapType`; `reserve` does nothing. -/
def LossyArrayMap.mapType (H : Hash) {kNumSlots : Nat} (hN : 0 < kNumSlots) :
    MapType (LossyArrayMap kNumSlots) (Fin kNumSlots) where
  reserve := fun m _ => m
  emplace := LossyArrayMap.emplace H hN
  second := LossyArrayMap.second
  setSecond := LossyArrayMap.setSecond

/-- One pass of `DedupWithMap<LossyArrayMap<Hash, kNumSlots>>`, the uninitialised contents
of `vals_` being `garbage`. -/
def DedupLossyArrayMap (H : Hash) {kNumSlots : Nat} (hN : 0 < kNumSlots)
    (garbage : Fin kNumSlots → Int) (vals : List StringView) : Output :=
  DedupWithMap (LossyArrayMap.mapType H hN) (LossyArrayMap.init garbage) vals

/-! ## Specification-side definitions -/

/-- Sum of the sizes of the values. -/
def totalBytes : List StringView → Nat
  | [] => 0
  | v :: vs => v.bytes.length + totalBytes vs

/-- Concatenation of the bytes of the values, in order. -/
def concatBytes : List StringView → List Nat
  | [] => []
  | v :: vs => v.bytes ++ concatBytes vs

/-- The keys of the values, in order. -/
def keysOf (vals : List StringView) : List Nat :=
  vals.map StringView.data

/-- The values whose key occurs neither in `seen` nor earlier in the list. -/
def firstOccurrences (seen : List Nat) : List StringView → List StringView
  | [] => []
  | v :: vs =>
    if v.data ∈ seen then firstOccurrences seen vs
    else v :: firstOccurrences (v.data :: seen) vs

/-- For each distinct key, the first value of the input carrying it, in input order. -/
def firstValues (vals : List StringView) : List StringView :=
  firstOccurrences [] vals

/-- Number of bytes that precede the first value with key `k` when the values are laid out
one after the other. -/
def appendPosition (k : Nat) : List StringView → Nat
  | [] => 0
  | v :: vs => if v.data = k then 0 else v.bytes.length + appendPosition k vs

/-- Values that share a key have the same bytes. -/
def SameKeySameBytes (vals : List StringView) : Prop :=
  ∀ v ∈ vals, ∀ w ∈ vals, v.data = w.data → v.bytes = w.bytes

/-- The span of `buf` that starts at offset `o` and has the size of `bytes` lies inside
`buf` and holds `bytes`. -/
def SpanAt (buf : List Nat) (o : Int) (bytes : List Nat) : Prop :=
  0 ≤ o ∧ o.toNat + bytes.length ≤ buf.length ∧ (buf.drop o.toNat).take bytes.length = bytes


/-- The first value of the list whose key is `k`. -/
def firstWithKey (k : Nat) (vals : List StringView) : Option StringView :=
  vals.find? (fun w => decide (w.data = k))

/-- Content correctness of an output for an input: every offset designates a span of the
buffer that holds the bytes of its value. -/
def ContentCorrect (vals : List StringView) (out : Output) : Prop :=
  ∀ i (hi : i < vals.length), ∃ o, out.offsets[i]? = some o ∧ SpanAt out.out_buf o vals[i].bytes

/-- The scenario input `["ab","cd","ab","ef","cd"]`; equal strings share a key. -/
def scenarioInput : List StringView :=
  [⟨10, [97, 98]⟩, ⟨20, [99, 100]⟩, ⟨10, [97, 98]⟩, ⟨30, [101, 102]⟩, ⟨20, [99, 100]⟩]

/-- A value of `2^31` bytes. -/
def hugeBytes : List Nat := List.replicate 2147483648 120

/-- An input of two adjacent values with distinct, non-null keys, the first of `2^31`
bytes at address `8`, the second of one byte right behind it. -/
def hugeInput : List StringView :=
  [⟨8, hugeBytes⟩, ⟨2147483656, [121]⟩]

/-- Value number `j` of the input is appended by the encoder at buffer position `o`: when
the loop reaches it, `emplace` reports that an insertion is needed, and the buffer has `o`
bytes at that moment. -/
def AppendedAt {M It : Type} (T : MapType M It) (cache : M) (vals : List StringView)
    (j : Nat) (o : Int) : Prop :=
  ∃ v, vals[j]? = some v ∧
    (T.emplace (DedupWithMap.loop T cache (vals.take j)).cache v.data (-1)).1.2 = true ∧
    o = ((DedupWithMap.loop T cache (vals.take j)).out_buf.length : Int)

/-- One use of the lossy cache: the call `emplace(key, -1)`, followed, in the way of
`DedupWithMap` (lines 78-81), by the store of an offset through the iterator when an
insertion is needed. A call is the pair of `key` and the offset the caller would store,
`none` standing for a caller that stores nothing. -/
def LossyArrayMap.use (H : Hash) {kNumSlots : Nat} (hN : 0 < kNumSlots)
    (m : LossyArrayMap kNumSlots) (call : Nat × Option Int) : LossyArrayMap kNumSlots :=
  let r := LossyArrayMap.emplace H hN m call.1 (-1)
  match call.2 with
  | some x => if r.1.2 then LossyArrayMap.setSecond r.2 r.1.1 x else r.2
  | none => r.2

/-- A sequence of uses of the lossy cache. -/
def LossyArrayMap.useAll (H : Hash) {kNumSlots : Nat} (hN : 0 < kNumSlots)
    (m : LossyArrayMap kNumSlots) (calls : List (Nat × Option Int)) :
    LossyArrayMap kNumSlots :=
  calls.foldl (LossyArrayMap.use H hN) m

/-- Offset validity of an output: every offset is a position inside the buffer. -/
def OffsetsValid (out : Output) : Prop :=
  ∀ o ∈ out.offsets, 0 ≤ o ∧ o < (out.out_buf.length : Int)

/-- A lossy cache of four slots, hashed by `Identity`, after `emplace` of the key `4`. -/
def cacheWithKey4 : LossyArrayMap 4 :=
  (LossyArrayMap.emplace Hash.Identity (Nat.succ_pos 3) (LossyArrayMap.init (fun _ => 0)) 4
    (-1)).2

/-- An input whose keys `4` and `8` map to the same slot of a cache of four slots hashed
by `Identity`. -/
def collidingInput : List StringView := [⟨4, [97]⟩, ⟨8, [98]⟩, ⟨4, [97]⟩]

/-- An input with a single value, which is empty. -/
def emptyValueInput : List StringView := [⟨8, []⟩]

/-- An input with a single value, a default-constructed `string_view`: null data pointer,
size zero. -/
def nullKeyInput : List StringView := [⟨nullptr, []⟩]

/-- Number of iterations of the loop of `DedupWithMap`, run over the values from the loop
state `s`, at whose start the cache and the value satisfy `P`. -/
def DedupWithMap.countSteps {M It : Type} (T : MapType M It) (P : M → StringView → Bool)
    (s : LoopState M) : List StringView → Nat
  | [] => 0
  | v :: vs =>
    (if P s.cache v then 1 else 0) + DedupWithMap.countSteps T P (DedupWithMap.step T s v) vs

/-- Number of values that one pass of `DedupWithMap` appends to the buffer: the iterations
in which `emplace` reports that an insertion is needed. -/
def DedupWithMap.appendCount {M It : Type} (T : MapType M It) (cache : M)
    (vals : List StringView) : Nat :=
  DedupWithMap.countSteps T (fun m v => (T.emplace m v.data (-1)).1.2)
    { cache := T.reserve cache 16, out_buf := [], offsets := [] } vals

/-- Number of distinct keys of the input. -/
def numDistinctKeys (vals : List StringView) : Nat :=
  (keysOf vals).dedup.length

/-- The slots written by the inserts so far, after one more iteration of the loop, on the
value `v` with the cache `m`: the slot of `v` joins them when `emplace` reports that an
insertion is needed. -/
def LossyArrayMap.writtenAfter (H : Hash) {kNumSlots : Nat} (hN : 0 < kNumSlots)
    (m : LossyArrayMap kNumSlots) (written : List (Fin kNumSlots)) (v : StringView) :
    List (Fin kNumSlots) :=
  if (LossyArrayMap.emplace H hN m v.data (-1)).1.2 then
    (LossyArrayMap.emplace H hN m v.data (-1)).1.1 :: written
  else written

/-- The slots written by the inserts of the loop of the lossy encoder, run over the values
from the loop state `s` with the slots `written` before. -/
def LossyArrayMap.writtenFrom (H : Hash) {kNumSlots : Nat} (hN : 0 < kNumSlots)
    (s : LoopState (LossyArrayMap kNumSlots)) (written : List (Fin kNumSlots)) :
    List StringView → List (Fin kNumSlots)
  | [] => written
  | v :: vs =>
    LossyArrayMap.writtenFrom H hN (DedupWithMap.step (LossyArrayMap.mapType H hN) s v)
      (LossyArrayMap.writtenAfter H hN s.cache written v) vs

/-- The slots written by the inserts of one pass of the lossy encoder over the values. -/
def LossyArrayMap.writtenSlots (H : Hash) {kNumSlots : Nat} (hN : 0 < kNumSlots)
    (garbage : Fin kNumSlots → Int) (vals : List StringView) : List (Fin kNumSlots) :=
  LossyArrayMap.writtenFrom H hN
    { cache := LossyArrayMap.init garbage, out_buf := [], offsets := [] } [] vals

/-- Number of inserts of the loop of the lossy encoder, run over the values from the loop
state `s` with the slots `written` before, that go into a slot no insert has written so
far, which still holds the empty marker (`fresh = true`), or into a slot written before,
whose key they overwrite (`fresh = false`). -/
def LossyArrayMap.countInserts (H : Hash) {kNumSlots : Nat} (hN : 0 < kNumSlots)
    (fresh : Bool) (s : LoopState (LossyArrayMap kNumSlots))
    (written : List (Fin kNumSlots)) : List StringView → Nat
  | [] => 0
  | v :: vs =>
    (if (LossyArrayMap.emplace H hN s.cache v.data (-1)).1.2 &&
        (decide ((LossyArrayMap.emplace H hN s.cache v.data (-1)).1.1 ∉ written) == fresh)
      then 1 else 0) +
      LossyArrayMap.countInserts H hN fresh
        (DedupWithMap.step (LossyArrayMap.mapType H hN) s v)
        (LossyArrayMap.writtenAfter H hN s.cache written v) vs

/-- Number of inserts of one pass of the lossy encoder into a slot still holding the empty
marker: a slot that no insert has written so far. -/
def LossyArrayMap.insertsIntoEmpty (H : Hash) {kNumSlots : Nat} (hN : 0 < kNumSlots)
    (garbage : Fin kNumSlots → Int) (vals : List StringView) : Nat :=
  LossyArrayMap.countInserts H hN true
    { cache := LossyArrayMap.init garbage, out_buf := [], offsets := [] } [] vals

/-- Number of inserts of one pass of the lossy encoder that overwrite a slot holding a
different key: a slot that an earlier insert has written. -/
def LossyArrayMap.overwrites (H : Hash) {kNumSlots : Nat} (hN : 0 < kNumSlots)
    (garbage : Fin kNumSlots → Int) (vals : List StringView) : Nat :=
  LossyArrayMap.countInserts H hN false
    { cache := LossyArrayMap.init garbage, out_buf := [], offsets := [] } [] vals

/-- Distinct keys of the input are mapped to distinct slots. -/
def NoCollision (H : Hash) {kNumSlots : Nat} (hN : 0 < kNumSlots) (vals : List StringView) :
    Prop :=
  ∀ v ∈ vals, ∀ w ∈ vals,
    LossyArrayMap.slot H hN v.data = LossyArrayMap.slot H hN w.data → v.data = w.data

/-- An input of two empty values that share the key `8`. -/
def sharedEmptyInput : List StringView := [⟨8, []⟩, ⟨8, []⟩]

/-- An input that alternates the key `4` and a default-constructed `string_view`, whose
key is null; both keys map to slot 0 of a cache of four slots hashed by `Identity`. -/
def nullAlternatingInput : List StringView :=
  [⟨4, [97]⟩, ⟨nullptr, []⟩, ⟨4, [97]⟩, ⟨nullptr, []⟩, ⟨4, [97]⟩]

/-- The key of the value that precedes value number `i`, the empty marker for `i = 0`. -/
def previousKey (vals : List StringView) : Nat → Nat
  | 0 => nullptr
  | i + 1 => (keysOf vals).getD i nullptr

/-- The input `["ab","cd","ef"]`, each value with a key of its own. -/
def distinctInput : List StringView :=
  [⟨10, [97, 98]⟩, ⟨20, [99, 100]⟩, ⟨30, [101, 102]⟩]

/-- Every offset of the output is the conversion to `int` of a position inside the buffer,
and is that position itself, hence a valid offset, when the position is below `2^31`. -/
def OffsetsInside (out : Output) : Prop :=
  ∀ o ∈ out.offsets, ∃ p : Nat, o = toInt p ∧ p < out.out_buf.length ∧
    (p < 2 ^ 31 → 0 ≤ o ∧ o < (out.out_buf.length : Int))

theorem four_pos : 0 < 4 := by decide

theorem toInt_of_lt {n : Nat} (h : n < 2 ^ 31) : toInt n = (n : Int) := by
  have h1 : n % 2 ^ 32 = n := Nat.mod_eq_of_lt (by omega)
  unfold toInt
  rw [h1, if_pos h]

theorem concatBytes_append (xs ys : List StringView) :
    concatBytes (xs ++ ys) = concatBytes xs ++ concatBytes ys := by
  induction xs with
  | nil => rfl
  | cons v vs ih => simp [concatBytes, ih]

theorem length_concatBytes (xs : List StringView) :
    (concatBytes xs).length = totalBytes xs := by
  induction xs with
  | nil => rfl
  | cons v vs ih => simp [concatBytes, totalBytes, ih]

theorem totalBytes_append (xs ys : List StringView) :
    totalBytes (xs ++ ys) = totalBytes xs + totalBytes ys := by
  induction xs with
  | nil => simp [totalBytes]
  | cons v vs ih => simp [totalBytes, ih]; omega

theorem loop_nil {M It : Type} (T : MapType M It) (c : M) :
    DedupWithMap.loop T c [] = { cache := T.reserve c 16, out_buf := [], offsets := [] } := rfl

theorem loop_snoc {M It : Type} (T : MapType M It) (c : M) (pre : List StringView)
    (v : StringView) :
    DedupWithMap.loop T c (pre ++ [v]) = DedupWithMap.step T (DedupWithMap.loop T c pre) v := by
  simp [DedupWithMap.loop, List.foldl_append]

theorem step_out_buf {M It : Type} (T : MapType M It) (s : LoopState M) (v : StringView) :
    (DedupWithMap.step T s v).out_buf =
      s.out_buf ++ (if (T.emplace s.cache v.data (-1)).1.2 = true then v.bytes else []) := by
  unfold DedupWithMap.step
  by_cases h : (T.emplace s.cache v.data (-1)).1.2 = true <;> simp [h]

theorem step_offsets_length {M It : Type} (T : MapType M It) (s : LoopState M)
    (v : StringView) :
    (DedupWithMap.step T s v).offsets.length = s.offsets.length + 1 := by
  unfold DedupWithMap.step
  by_cases h : (T.emplace s.cache v.data (-1)).1.2 = true <;> simp [h]

theorem step_offsets {M It : Type} (T : MapType M It) (s : LoopState M) (v : StringView) :
    ∃ x, (DedupWithMap.step T s v).offsets = s.offsets ++ [x] := by
  unfold DedupWithMap.step
  by_cases h : (T.emplace s.cache v.data (-1)).1.2 = true
  · simp only [h, if_true]
    exact ⟨_, rfl⟩
  · simp only [h]
    exact ⟨_, rfl⟩

theorem loop_offsets_length {M It : Type} (T : MapType M It) (c : M) (vals : List StringView) :
    (DedupWithMap.loop T c vals).offsets.length = vals.length := by
  induction vals using List.reverseRecOn with
  | nil => rfl
  | append_singleton pre v ih => simp [loop_snoc, step_offsets_length, ih]

theorem loop_out_buf_length_le {M It : Type} (T : MapType M It) (c : M)
    (vals : List StringView) :
    (DedupWithMap.loop T c vals).out_buf.length ≤ totalBytes vals := by
  induction vals using List.reverseRecOn with
  | nil => simp [loop_nil]
  | append_singleton pre v ih =>
    rw [loop_snoc, step_out_buf, totalBytes_append, List.length_append]
    have h1 : totalBytes [v] = v.bytes.length := by simp [totalBytes]
    have h2 : (if (T.emplace (DedupWithMap.loop T c pre).cache v.data (-1)).1.2 = true
        then v.bytes else []).length ≤ v.bytes.length := by
      split <;> simp
    omega

theorem loop_out_buf_prefix {M It : Type} (T : MapType M It) (c : M)
    (xs ys : List StringView) :
    (DedupWithMap.loop T c xs).out_buf <+: (DedupWithMap.loop T c (xs ++ ys)).out_buf := by
  induction ys using List.reverseRecOn with
  | nil => rw [List.append_nil]
  | append_singleton pre v ih =>
    rw [← List.append_assoc, loop_snoc, step_out_buf]
    exact ih.trans (List.prefix_append _ _)

theorem loop_offsets_prefix {M It : Type} (T : MapType M It) (c : M)
    (xs ys : List StringView) :
    (DedupWithMap.loop T c xs).offsets <+: (DedupWithMap.loop T c (xs ++ ys)).offsets := by
  induction ys using List.reverseRecOn with
  | nil => rw [List.append_nil]
  | append_singleton pre v ih =>
    rw [← List.append_assoc, loop_snoc]
    refine ih.trans ?_
    obtain ⟨x, hx⟩ := step_offsets T (DedupWithMap.loop T c (xs ++ pre)) v
    rw [hx]
    exact List.prefix_append _ _

theorem noDedup_snoc (pre : List StringView) (v : StringView) :
    NoDedup (pre ++ [v]) = NoDedup.step (NoDedup pre) v := by
  simp [NoDedup, List.foldl_append]

theorem noDedup_out_buf (vals : List StringView) :
    (NoDedup vals).out_buf = concatBytes vals := by
  induction vals using List.reverseRecOn with
  | nil => rfl
  | append_singleton pre v ih =>
    rw [noDedup_snoc, concatBytes_append]
    simp [NoDedup.step, ih, concatBytes]

/-! ## Append events -/

theorem appendedAt_snoc {M It : Type} (T : MapType M It) (c : M) (pre : List StringView)
    (v : StringView) (j : Nat) (o : Int) (h : AppendedAt T c pre j o) :
    AppendedAt T c (pre ++ [v]) j o := by
  obtain ⟨w, hw, hflag, ho⟩ := h
  have hj : j < pre.length := (List.getElem?_eq_some.mp hw).1
  refine ⟨w, ?_, ?_, ?_⟩
  · rw [List.getElem?_append_left hj]; exact hw
  · rw [List.take_append_of_le_length (Nat.le_of_lt hj)]; exact hflag
  · rw [List.take_append_of_le_length (Nat.le_of_lt hj)]; exact ho

theorem appendedAt_last {M It : Type} (T : MapType M It) (c : M) (pre : List StringView)
    (v : StringView)
    (h : (T.emplace (DedupWithMap.loop T c pre).cache v.data (-1)).1.2 = true) :
    AppendedAt T c (pre ++ [v]) pre.length
      ((DedupWithMap.loop T c pre).out_buf.length : Int) := by
  refine ⟨v, List.getElem?_concat_length pre v, ?_, ?_⟩
  · rw [List.take_left]; exact h
  · rw [List.take_left]

theorem appendedAt_span {M It : Type} (T : MapType M It) (c : M) (vals : List StringView)
    (j : Nat) (o : Int) (w : StringView) (h : AppendedAt T c vals j o)
    (hw : vals[j]? = some w) :
    SpanAt (DedupWithMap.loop T c vals).out_buf o w.bytes := by
  obtain ⟨w2, hw2, hflag, ho⟩ := h
  have hww : w2 = w := Option.some.inj (hw2.symm.trans hw)
  subst hww
  have hsplit : vals = (vals.take j ++ [w2]) ++ vals.drop (j + 1) := by
    have h1 : vals.take (j + 1) = vals.take j ++ [w2] := by
      rw [List.take_succ, hw2]; rfl
    rw [← h1, List.take_append_drop]
  have hpre := loop_out_buf_prefix T c (vals.take j ++ [w2]) (vals.drop (j + 1))
  rw [← hsplit, loop_snoc, step_out_buf, if_pos hflag] at hpre
  obtain ⟨rest, hrest⟩ := hpre
  subst ho
  refine ⟨Int.ofNat_zero_le _, ?_, ?_⟩
  · rw [Int.toNat_ofNat, ← hrest]
    simp only [List.length_append]
    omega
  · rw [Int.toNat_ofNat, ← hrest, List.append_assoc, List.drop_left]
    exact List.take_left' rfl

/-! ## First occurrences -/

theorem mem_keysOf_firstOccurrences (k : Nat) (seen : List Nat) (vals : List StringView) :
    k ∈ keysOf (firstOccurrences seen vals) ↔ k ∈ keysOf vals ∧ k ∉ seen := by
  induction vals generalizing seen with
  | nil => simp [firstOccurrences, keysOf]
  | cons v vs ih =>
    unfold firstOccurrences
    by_cases hv : v.data ∈ seen
    · rw [if_pos hv, ih]
      simp only [keysOf, List.map_cons, List.mem_cons]
      constructor
      · rintro ⟨h1, h2⟩
        exact ⟨Or.inr h1, h2⟩
      · rintro ⟨h1 | h1, h2⟩
        · exact absurd (h1 ▸ hv) h2
        · exact ⟨h1, h2⟩
    · rw [if_neg hv]
      have ih2 := ih (v.data :: seen)
      simp only [keysOf, List.map_cons, List.mem_cons] at ih2 ⊢
      rw [ih2]
      constructor
      · rintro (h1 | ⟨h1, h2⟩)
        · exact ⟨Or.inl h1, h1 ▸ hv⟩
        · exact ⟨Or.inr h1, fun h => h2 (Or.inr h)⟩
      · rintro ⟨h1 | h1, h2⟩
        · exact Or.inl h1
        · by_cases hk : k = v.data
          · exact Or.inl hk
          · exact Or.inr ⟨h1, fun h => h.elim hk h2⟩

theorem mem_keysOf_firstValues (k : Nat) (vals : List StringView) :
    k ∈ keysOf (firstValues vals) ↔ k ∈ keysOf vals := by
  simp [firstValues, mem_keysOf_firstOccurrences]

theorem firstOccurrences_snoc (seen : List Nat) (pre : List StringView) (v : StringView) :
    firstOccurrences seen (pre ++ [v]) =
      firstOccurrences seen pre ++
        (if v.data ∈ seen ∨ v.data ∈ keysOf pre then [] else [v]) := by
  induction pre generalizing seen with
  | nil =>
    by_cases hv : v.data ∈ seen <;> simp [firstOccurrences, keysOf, hv]
  | cons w ws ih =>
    have hk : keysOf (w :: ws) = w.data :: keysOf ws := rfl
    rw [List.cons_append, hk]
    by_cases hw : w.data ∈ seen
    · rw [firstOccurrences, if_pos hw, firstOccurrences, if_pos hw, ih seen]
      congr 1
      by_cases h1 : v.data ∈ seen
      · simp [h1]
      · have h2 : v.data ≠ w.data := fun h => h1 (h ▸ hw)
        simp [h1, h2]
    · rw [firstOccurrences, if_neg hw, firstOccurrences, if_neg hw, ih (w.data :: seen),
        List.cons_append]
      congr 2
      by_cases h2 : v.data = w.data
      · simp [h2]
      · simp [h2, or_comm]

theorem firstValues_snoc (pre : List StringView) (v : StringView) :
    firstValues (pre ++ [v]) =
      firstValues pre ++ (if v.data ∈ keysOf pre then [] else [v]) := by
  simp [firstValues, firstOccurrences_snoc]

theorem firstOccurrences_sublist (seen : List Nat) (vals : List StringView) :
    (firstOccurrences seen vals).Sublist vals := by
  induction vals generalizing seen with
  | nil => simp [firstOccurrences]
  | cons v vs ih =>
    unfold firstOccurrences
    split
    · exact (ih seen).cons v
    · exact (ih _).cons₂ v

theorem nodup_keysOf_firstOccurrences (seen : List Nat) (vals : List StringView) :
    (keysOf (firstOccurrences seen vals)).Nodup := by
  induction vals generalizing seen with
  | nil => simp [firstOccurrences, keysOf]
  | cons v vs ih =>
    unfold firstOccurrences
    split
    · exact ih seen
    · have h := ih (v.data :: seen)
      have hm := mem_keysOf_firstOccurrences v.data (v.data :: seen) vs
      simp only [keysOf, List.map_cons] at h hm ⊢
      exact List.nodup_cons.mpr ⟨fun hc => (hm.mp hc).2 (List.mem_cons_self _ _), h⟩

theorem appendPosition_append (k : Nat) (xs ys : List StringView) :
    appendPosition k (xs ++ ys) =
      if k ∈ keysOf xs then appendPosition k xs else totalBytes xs + appendPosition k ys := by
  induction xs with
  | nil => simp [appendPosition, keysOf, totalBytes]
  | cons v vs ih =>
    by_cases hk : v.data = k
    · simp [appendPosition, keysOf, hk]
    · have hk2 : ¬ k = v.data := fun h => hk h.symm
      have hm : k ∈ keysOf (v :: vs) ↔ k ∈ keysOf vs := by simp [keysOf, hk2]
      rw [List.cons_append, appendPosition, if_neg hk, ih, appendPosition, if_neg hk, totalBytes]
      by_cases hin : k ∈ keysOf vs
      · rw [if_pos hin, if_pos (hm.mpr hin)]
      · rw [if_neg hin, if_neg (fun h => hin (hm.mp h))]
        omega

theorem appendPosition_le (k : Nat) (xs : List StringView) :
    appendPosition k xs ≤ totalBytes xs := by
  induction xs with
  | nil => simp [appendPosition]
  | cons v vs ih =>
    simp only [appendPosition, totalBytes]
    split <;> omega

theorem totalBytes_sublist {xs ys : List StringView} (h : xs.Sublist ys) :
    totalBytes xs ≤ totalBytes ys := by
  induction h with
  | slnil => exact Nat.le_refl _
  | cons a _ ih => simp only [totalBytes]; omega
  | cons₂ a _ ih => simp only [totalBytes]; omega

theorem totalBytes_firstValues_le (vals : List StringView) :
    totalBytes (firstValues vals) ≤ totalBytes vals :=
  totalBytes_sublist (firstOccurrences_sublist [] vals)

/-! ## The exact encoder -/

theorem exact_step_hit (s : LoopState UnorderedMap) (v : StringView) (x : Int)
    (h : s.cache v.data = some x) :
    DedupWithMap.step UnorderedMap.mapType s v =
      { cache := s.cache, out_buf := s.out_buf, offsets := s.offsets ++ [x] } := by
  simp [DedupWithMap.step, UnorderedMap.mapType, UnorderedMap.emplace, UnorderedMap.second, h]

theorem exact_step_miss (s : LoopState UnorderedMap) (v : StringView)
    (h : s.cache v.data = none) :
    DedupWithMap.step UnorderedMap.mapType s v =
      { cache := Function.update s.cache v.data (some (toInt s.out_buf.length))
        out_buf := s.out_buf ++ v.bytes
        offsets := s.offsets ++ [toInt s.out_buf.length] } := by
  simp [DedupWithMap.step, UnorderedMap.mapType, UnorderedMap.emplace, UnorderedMap.second,
    UnorderedMap.setSecond, h]

/-- Loop invariant of the exact encoder: after the values `pre`, the buffer holds the first
value of each key, the offsets are the (converted) append positions, and the map sends
each key seen to its append position. -/
theorem exact_loop_spec (pre : List StringView) :
    (DedupWithMap.loop UnorderedMap.mapType UnorderedMap.empty pre).out_buf =
        concatBytes (firstValues pre) ∧
    (DedupWithMap.loop UnorderedMap.mapType UnorderedMap.empty pre).offsets =
        pre.map (fun v => toInt (appendPosition v.data (firstValues pre))) ∧
    ∀ k, (DedupWithMap.loop UnorderedMap.mapType UnorderedMap.empty pre).cache k =
        if k ∈ keysOf pre then some (toInt (appendPosition k (firstValues pre))) else none := by
  induction pre using List.reverseRecOn with
  | nil =>
    refine ⟨rfl, rfl, fun k => ?_⟩
    simp [loop_nil, UnorderedMap.mapType, UnorderedMap.empty, keysOf]
  | append_singleton pre v ih =>
    obtain ⟨hbuf, hoffs, hcache⟩ := ih
    rw [loop_snoc, firstValues_snoc]
    have hkeys : ∀ k, k ∈ keysOf (pre ++ [v]) ↔ k ∈ keysOf pre ∨ k = v.data := by
      intro k; simp [keysOf]
    by_cases hk : v.data ∈ keysOf pre
    · have hc := hcache v.data
      rw [if_pos hk] at hc
      rw [exact_step_hit _ _ _ hc, if_pos hk, List.append_nil]
      refine ⟨hbuf, ?_, fun k => ?_⟩
      · simp only [hoffs, List.map_append, List.map_cons, List.map_nil]
      · show (DedupWithMap.loop UnorderedMap.mapType UnorderedMap.empty pre).cache k = _
        rw [hcache k]
        by_cases hkp : k ∈ keysOf pre
        · rw [if_pos hkp, if_pos ((hkeys k).mpr (Or.inl hkp))]
        · have hne : k ≠ v.data := fun h => hkp (h ▸ hk)
          rw [if_neg hkp, if_neg (fun h => ((hkeys k).mp h).elim hkp hne)]
    · have hc := hcache v.data
      rw [if_neg hk] at hc
      have hlen : (DedupWithMap.loop UnorderedMap.mapType UnorderedMap.empty pre).out_buf.length
          = totalBytes (firstValues pre) := by rw [hbuf, length_concatBytes]
      have hpos : ∀ k, appendPosition k (firstValues pre ++ [v]) =
          if k ∈ keysOf pre then appendPosition k (firstValues pre)
          else totalBytes (firstValues pre) + appendPosition k [v] := by
        intro k
        rw [appendPosition_append]
        by_cases hkp : k ∈ keysOf pre
        · rw [if_pos ((mem_keysOf_firstValues k pre).mpr hkp), if_pos hkp]
        · rw [if_neg (fun h => hkp ((mem_keysOf_firstValues k pre).mp h)), if_neg hkp]
      have hv : appendPosition v.data [v] = 0 := by simp [appendPosition]
      rw [exact_step_miss _ _ hc, if_neg hk, hlen]
      refine ⟨?_, ?_, fun k => ?_⟩
      · show (DedupWithMap.loop UnorderedMap.mapType UnorderedMap.empty pre).out_buf ++ v.bytes = _
        rw [hbuf, concatBytes_append]
        simp [concatBytes]
      · show (DedupWithMap.loop UnorderedMap.mapType UnorderedMap.empty pre).offsets ++ _ = _
        rw [hoffs, List.map_append, List.map_cons, List.map_nil, hpos v.data, if_neg hk, hv,
          Nat.add_zero]
        congr 1
        apply List.map_congr_left
        intro w hw
        have hwk : w.data ∈ keysOf pre := List.mem_map_of_mem _ hw
        rw [hpos w.data, if_pos hwk]
      · show Function.update _ v.data _ k = _
        by_cases hkv : k = v.data
        · subst hkv
          rw [Function.update_same, if_pos ((hkeys _).mpr (Or.inr rfl)), hpos, if_neg hk, hv,
            Nat.add_zero]
        · rw [Function.update_noteq hkv, hcache k, hpos k]
          by_cases hkp : k ∈ keysOf pre
          · rw [if_pos hkp, if_pos ((hkeys k).mpr (Or.inl hkp)), if_pos hkp]
          · rw [if_neg hkp, if_neg (fun h => ((hkeys k).mp h).elim hkp hkv)]

/-- The exact encoder in closed form, for inputs of any size. -/
theorem exact_output (vals : List StringView) :
    DedupUnorderedMap vals =
      { out_buf := concatBytes (firstValues vals)
        offsets := vals.map (fun v => toInt (appendPosition v.data (firstValues vals))) } := by
  obtain ⟨h1, h2, _⟩ := exact_loop_spec vals
  simp only [DedupUnorderedMap, DedupWithMap, h1, h2]

theorem firstWithKey_firstOccurrences (k : Nat) (seen : List Nat) (vals : List StringView)
    (hk : k ∉ seen) :
    firstWithKey k (firstOccurrences seen vals) = firstWithKey k vals := by
  induction vals generalizing seen with
  | nil => rfl
  | cons v vs ih =>
    unfold firstOccurrences
    by_cases hv : v.data ∈ seen
    · have hne : ¬ v.data = k := fun h => hk (h ▸ hv)
      rw [if_pos hv, ih seen hk]
      simp [firstWithKey, List.find?_cons, hne]
    · rw [if_neg hv]
      by_cases hvk : v.data = k
      · simp [firstWithKey, List.find?_cons, hvk]
      · have hk2 : k ∉ v.data :: seen := by
          intro h
          rcases List.mem_cons.mp h with h | h
          · exact hvk h.symm
          · exact hk h
        have := ih (v.data :: seen) hk2
        simp only [firstWithKey, List.find?_cons, hvk, decide_False] at this ⊢
        exact this

theorem firstWithKey_firstValues (k : Nat) (vals : List StringView) :
    firstWithKey k (firstValues vals) = firstWithKey k vals :=
  firstWithKey_firstOccurrences k [] vals (List.not_mem_nil k)

theorem firstWithKey_of_mem {k : Nat} {vals : List StringView} {v : StringView}
    (hv : v ∈ vals) (hk : v.data = k) :
    ∃ w, firstWithKey k vals = some w ∧ w ∈ vals ∧ w.data = k := by
  cases h : firstWithKey k vals with
  | none =>
    have := List.find?_eq_none.mp h v hv
    simp [hk] at this
  | some w =>
    refine ⟨w, rfl, List.mem_of_find?_eq_some h, ?_⟩
    have := List.find?_some h
    simpa using this

theorem span_firstWithKey (k : Nat) (L : List StringView) (w : StringView)
    (h : firstWithKey k L = some w) :
    appendPosition k L + w.bytes.length ≤ totalBytes L ∧
      ((concatBytes L).drop (appendPosition k L)).take w.bytes.length = w.bytes := by
  induction L with
  | nil => simp [firstWithKey] at h
  | cons v vs ih =>
    by_cases hv : v.data = k
    · have hw : v = w := by simpa [firstWithKey, List.find?_cons, hv] using h
      subst hw
      simp only [appendPosition, if_pos hv, totalBytes, concatBytes, List.drop_zero]
      exact ⟨by omega, List.take_left' rfl⟩
    · have h2 : firstWithKey k vs = some w := by
        simpa [firstWithKey, List.find?_cons, hv] using h
      obtain ⟨ih1, ih2⟩ := ih h2
      simp only [appendPosition, if_neg hv, totalBytes, concatBytes, List.drop_append]
      exact ⟨by omega, ih2⟩

theorem getElem?_offsets_exact (vals : List StringView) (i : Nat) (hi : i < vals.length) :
    (DedupUnorderedMap vals).offsets[i]? =
      some (toInt (appendPosition vals[i].data (firstValues vals))) := by
  rw [exact_output]
  simp [List.getElem?_map, List.getElem?_eq_getElem hi]

theorem hugeBytes_length : hugeBytes.length = 2147483648 :=
  List.length_replicate _ _

theorem toInt_two_pow_31 : toInt 2147483648 = -2147483648 := by decide

theorem exact_hugeInput :
    DedupUnorderedMap hugeInput =
      { out_buf := hugeBytes ++ [121], offsets := [0, -2147483648] } := by
  rw [exact_output]
  have hf : firstValues hugeInput = hugeInput := by
    simp [firstValues, hugeInput, firstOccurrences]
  have h0 : toInt 0 = 0 := by decide
  rw [hf]
  simp only [hugeInput, concatBytes, List.map_cons, List.map_nil, appendPosition, if_true,
    List.append_nil, hugeBytes_length, h0, toInt_two_pow_31]
  simp [toInt_two_pow_31]

/-! ## The lossy cache and its encoder -/

theorem lossy_emplace_flag (H : Hash) {kNumSlots : Nat} (hN : 0 < kNumSlots)
    (m : LossyArrayMap kNumSlots) (p : Nat) (off : Int) :
    (LossyArrayMap.emplace H hN m p off).1.2 = true ↔
      m.keys_ (LossyArrayMap.slot H hN p) ≠ p := by
  unfold LossyArrayMap.emplace
  by_cases h : m.keys_ (LossyArrayMap.slot H hN p) = p <;> simp [h]

theorem lossy_emplace_it (H : Hash) {kNumSlots : Nat} (hN : 0 < kNumSlots)
    (m : LossyArrayMap kNumSlots) (p : Nat) (off : Int) :
    (LossyArrayMap.emplace H hN m p off).1.1 = LossyArrayMap.slot H hN p := by
  unfold LossyArrayMap.emplace
  by_cases h : m.keys_ (LossyArrayMap.slot H hN p) = p <;> simp [h]

theorem lossy_emplace_hit (H : Hash) {kNumSlots : Nat} (hN : 0 < kNumSlots)
    (m : LossyArrayMap kNumSlots) (p : Nat) (off : Int)
    (h : m.keys_ (LossyArrayMap.slot H hN p) = p) :
    LossyArrayMap.emplace H hN m p off = ((LossyArrayMap.slot H hN p, false), m) := by
  unfold LossyArrayMap.emplace
  simp [h]

theorem lossy_emplace_miss (H : Hash) {kNumSlots : Nat} (hN : 0 < kNumSlots)
    (m : LossyArrayMap kNumSlots) (p : Nat) (off : Int)
    (h : m.keys_ (LossyArrayMap.slot H hN p) ≠ p) :
    LossyArrayMap.emplace H hN m p off =
      ((LossyArrayMap.slot H hN p, true),
        { keys_ := Function.update m.keys_ (LossyArrayMap.slot H hN p) p, vals_ := m.vals_ }) := by
  unfold LossyArrayMap.emplace
  simp [h]

theorem lossy_step_hit (H : Hash) {kNumSlots : Nat} (hN : 0 < kNumSlots)
    (s : LoopState (LossyArrayMap kNumSlots)) (v : StringView)
    (h : s.cache.keys_ (LossyArrayMap.slot H hN v.data) = v.data) :
    DedupWithMap.step (LossyArrayMap.mapType H hN) s v =
      { cache := s.cache
        out_buf := s.out_buf
        offsets := s.offsets ++ [s.cache.vals_ (LossyArrayMap.slot H hN v.data)] } := by
  simp [DedupWithMap.step, LossyArrayMap.mapType, lossy_emplace_hit H hN _ _ _ h,
    LossyArrayMap.second]

theorem lossy_step_miss (H : Hash) {kNumSlots : Nat} (hN : 0 < kNumSlots)
    (s : LoopState (LossyArrayMap kNumSlots)) (v : StringView)
    (h : s.cache.keys_ (LossyArrayMap.slot H hN v.data) ≠ v.data) :
    DedupWithMap.step (LossyArrayMap.mapType H hN) s v =
      { cache :=
          { keys_ := Function.update s.cache.keys_ (LossyArrayMap.slot H hN v.data) v.data
            vals_ := Function.update s.cache.vals_ (LossyArrayMap.slot H hN v.data)
              (toInt s.out_buf.length) }
        out_buf := s.out_buf ++ v.bytes
        offsets := s.offsets ++ [toInt s.out_buf.length] } := by
  simp [DedupWithMap.step, LossyArrayMap.mapType, lossy_emplace_miss H hN _ _ _ h,
    LossyArrayMap.second, LossyArrayMap.setSecond]

/-- Loop invariant of the lossy encoder, for non-null keys: every occupied slot holds the
key of a value appended earlier and the converted position of that append, and every
offset recorded is the converted append position of an earlier value with the same key. -/
theorem lossy_loop_inv (H : Hash) {kNumSlots : Nat} (hN : 0 < kNumSlots)
    (garbage : Fin kNumSlots → Int) (pre : List StringView) :
    (∀ v ∈ pre, v.data ≠ nullptr) →
    (∀ slot,
      (DedupWithMap.loop (LossyArrayMap.mapType H hN) (LossyArrayMap.init garbage) pre).cache.keys_
          slot ≠ nullptr →
      ∃ (j : Nat) (p : Nat), (keysOf pre)[j]? = some
          ((DedupWithMap.loop (LossyArrayMap.mapType H hN) (LossyArrayMap.init garbage)
            pre).cache.keys_ slot) ∧
        AppendedAt (LossyArrayMap.mapType H hN) (LossyArrayMap.init garbage) pre j (p : Int) ∧
        (DedupWithMap.loop (LossyArrayMap.mapType H hN) (LossyArrayMap.init garbage)
            pre).cache.vals_ slot = toInt p) ∧
    (∀ i, i < pre.length →
      ∃ p : Nat, (DedupWithMap.loop (LossyArrayMap.mapType H hN) (LossyArrayMap.init garbage)
          pre).offsets[i]? = some (toInt p) ∧
        ∃ j, j ≤ i ∧ (keysOf pre)[j]? = (keysOf pre)[i]? ∧
          AppendedAt (LossyArrayMap.mapType H hN) (LossyArrayMap.init garbage) pre j
            (p : Int)) := by
  induction pre using List.reverseRecOn with
  | nil =>
    intro _
    refine ⟨fun slot h => ?_, fun i hi => ?_⟩
    · exact absurd rfl h
    · exact absurd hi (Nat.not_lt_zero i)
  | append_singleton pre v ih =>
    intro hnull
    obtain ⟨ihslot, ihoff⟩ := ih (fun w hw => hnull w (List.mem_append_left _ hw))
    have hvnull : v.data ≠ nullptr := hnull v (by simp)
    have hoflen := loop_offsets_length (LossyArrayMap.mapType H hN)
      (LossyArrayMap.init garbage) pre
    have hkeylen : (keysOf pre).length = pre.length := by simp [keysOf]
    have hkeysnoc : keysOf (pre ++ [v]) = keysOf pre ++ [v.data] := by simp [keysOf]
    have hkeylast : (keysOf (pre ++ [v]))[pre.length]? = some v.data := by
      rw [hkeysnoc, ← hkeylen]; exact List.getElem?_concat_length _ _
    have hkeyold : ∀ j, j < pre.length → (keysOf (pre ++ [v]))[j]? = (keysOf pre)[j]? := by
      intro j hj
      rw [hkeysnoc]
      exact List.getElem?_append_left (by omega)
    have hjlt : ∀ {j : Nat} {k : Nat}, (keysOf pre)[j]? = some k → j < pre.length := by
      intro j k h
      have := (List.getElem?_eq_some.mp h).1
      omega
    rw [loop_snoc]
    by_cases hhit : (DedupWithMap.loop (LossyArrayMap.mapType H hN) (LossyArrayMap.init garbage)
        pre).cache.keys_ (LossyArrayMap.slot H hN v.data) = v.data
    · rw [lossy_step_hit H hN _ _ hhit]
      obtain ⟨j0, p0, hj0, happ0, hval0⟩ :=
        ihslot (LossyArrayMap.slot H hN v.data) (by rw [hhit]; exact hvnull)
      rw [hhit] at hj0
      refine ⟨fun slot h => ?_, fun i hi => ?_⟩
      · obtain ⟨j, q, hj, happ, hval⟩ := ihslot slot h
        exact ⟨j, q, (hkeyold j (hjlt hj)).trans hj, appendedAt_snoc _ _ _ _ _ _ happ, hval⟩
      · by_cases hi2 : i < pre.length
        · obtain ⟨q, ho, j, hji, hjk, happ⟩ := ihoff i hi2
          refine ⟨q, ?_, j, hji, ?_, appendedAt_snoc _ _ _ _ _ _ happ⟩
          · show (_ ++ [_])[i]? = some _
            rw [List.getElem?_append_left (by omega)]; exact ho
          · rw [hkeyold j (by omega), hkeyold i hi2]; exact hjk
        · have hieq : i = pre.length := by
            simp only [List.length_append, List.length_singleton] at hi; omega
          subst hieq
          refine ⟨p0, ?_, j0, Nat.le_of_lt (hjlt hj0), ?_, appendedAt_snoc _ _ _ _ _ _ happ0⟩
          · show (_ ++ [_])[pre.length]? = some _
            rw [← hoflen, List.getElem?_concat_length, hval0]
          · rw [hkeyold j0 (hjlt hj0), hkeylast]; exact hj0
    · rw [lossy_step_miss H hN _ _ hhit]
      have hflag := (lossy_emplace_flag H hN _ v.data (-1)).mpr hhit
      have hlast := appendedAt_last (LossyArrayMap.mapType H hN) (LossyArrayMap.init garbage)
        pre v hflag
      refine ⟨fun slot h => ?_, fun i hi => ?_⟩
      · dsimp only at h ⊢
        by_cases hs : slot = LossyArrayMap.slot H hN v.data
        · rw [hs, Function.update_same, Function.update_same]
          exact ⟨pre.length, _, hkeylast, hlast, rfl⟩
        · rw [Function.update_noteq hs] at h
          rw [Function.update_noteq hs, Function.update_noteq hs]
          obtain ⟨j, q, hj, happ, hval⟩ := ihslot slot h
          exact ⟨j, q, (hkeyold j (hjlt hj)).trans hj, appendedAt_snoc _ _ _ _ _ _ happ, hval⟩
      · by_cases hi2 : i < pre.length
        · obtain ⟨q, ho, j, hji, hjk, happ⟩ := ihoff i hi2
          refine ⟨q, ?_, j, hji, ?_, appendedAt_snoc _ _ _ _ _ _ happ⟩
          · show (_ ++ [_])[i]? = some _
            rw [List.getElem?_append_left (by omega)]; exact ho
          · rw [hkeyold j (by omega), hkeyold i hi2]; exact hjk
        · have hieq : i = pre.length := by
            simp only [List.length_append, List.length_singleton] at hi; omega
          subst hieq
          refine ⟨_, ?_, pre.length, Nat.le_refl _, rfl, hlast⟩
          show (_ ++ [_])[pre.length]? = some _
          rw [← hoflen]; exact List.getElem?_concat_length _ _

theorem lossy_offsets_appended (H : Hash) {kNumSlots : Nat} (hN : 0 < kNumSlots)
    (garbage : Fin kNumSlots → Int) (vals : List StringView)
    (hnull : ∀ v ∈ vals, v.data ≠ nullptr) (i : Nat) (hi : i < vals.length) :
    ∃ p : Nat, (DedupLossyArrayMap H hN garbage vals).offsets[i]? = some (toInt p) ∧
      ∃ j, j ≤ i ∧ (keysOf vals)[j]? = some vals[i].data ∧
        AppendedAt (LossyArrayMap.mapType H hN) (LossyArrayMap.init garbage) vals j
          (p : Int) := by
  obtain ⟨p, ho, j, hji, hjk, happ⟩ := (lossy_loop_inv H hN garbage vals hnull).2 i hi
  refine ⟨p, ho, j, hji, ?_, happ⟩
  rw [hjk]
  simp [keysOf, List.getElem?_map, List.getElem?_eq_getElem hi]

theorem lossy_hugeInput :
    DedupLossyArrayMap Hash.Identity four_pos (fun _ => 0) hugeInput =
      { out_buf := hugeBytes ++ [121], offsets := [0, -2147483648] } := by
  have h0 : toInt 0 = 0 := by decide
  have hunfold : DedupWithMap.loop (LossyArrayMap.mapType Hash.Identity four_pos)
      (LossyArrayMap.init (fun _ => 0)) hugeInput =
      DedupWithMap.step (LossyArrayMap.mapType Hash.Identity four_pos)
        (DedupWithMap.step (LossyArrayMap.mapType Hash.Identity four_pos)
          { cache := LossyArrayMap.init (fun _ => 0), out_buf := [], offsets := [] }
          ⟨8, hugeBytes⟩) ⟨2147483656, [121]⟩ := rfl
  unfold DedupLossyArrayMap DedupWithMap
  rw [hunfold, lossy_step_miss _ _ _ _ (by decide), lossy_step_miss _ _ _ _ (by decide)]
  simp only [List.nil_append, List.length_nil, hugeBytes_length, h0, toInt_two_pow_31,
    List.cons_append]

/-! ## Sequences of uses of the lossy cache -/

theorem use_keys (H : Hash) {kNumSlots : Nat} (hN : 0 < kNumSlots)
    (m : LossyArrayMap kNumSlots) (c : Nat × Option Int) :
    (LossyArrayMap.use H hN m c).keys_ =
      Function.update m.keys_ (LossyArrayMap.slot H hN c.1) c.1 := by
  unfold LossyArrayMap.use
  by_cases h : m.keys_ (LossyArrayMap.slot H hN c.1) = c.1
  · rw [lossy_emplace_hit H hN m c.1 (-1) h]
    have hself : m.keys_ = Function.update m.keys_ (LossyArrayMap.slot H hN c.1) c.1 := by
      funext x
      by_cases hx : x = LossyArrayMap.slot H hN c.1
      · rw [hx, Function.update_same]; exact h
      · rw [Function.update_noteq hx]
    cases c.2 <;> simpa using hself
  · rw [lossy_emplace_miss H hN m c.1 (-1) h]
    cases c.2 <;> simp [LossyArrayMap.setSecond]

theorem use_vals_hit (H : Hash) {kNumSlots : Nat} (hN : 0 < kNumSlots)
    (m : LossyArrayMap kNumSlots) (c : Nat × Option Int)
    (h : m.keys_ (LossyArrayMap.slot H hN c.1) = c.1) :
    (LossyArrayMap.use H hN m c).vals_ = m.vals_ := by
  unfold LossyArrayMap.use
  rw [lossy_emplace_hit H hN m c.1 (-1) h]
  cases c.2 <;> simp

theorem use_vals_miss (H : Hash) {kNumSlots : Nat} (hN : 0 < kNumSlots)
    (m : LossyArrayMap kNumSlots) (k : Nat) (x : Int)
    (h : m.keys_ (LossyArrayMap.slot H hN k) ≠ k) :
    (LossyArrayMap.use H hN m (k, some x)).vals_ =
      Function.update m.vals_ (LossyArrayMap.slot H hN k) x := by
  unfold LossyArrayMap.use
  rw [lossy_emplace_miss H hN m k (-1) h]
  simp [LossyArrayMap.setSecond]

theorem use_vals_other (H : Hash) {kNumSlots : Nat} (hN : 0 < kNumSlots)
    (m : LossyArrayMap kNumSlots) (c : Nat × Option Int) (slot : Fin kNumSlots)
    (hs : slot ≠ LossyArrayMap.slot H hN c.1) :
    (LossyArrayMap.use H hN m c).vals_ slot = m.vals_ slot := by
  unfold LossyArrayMap.use
  by_cases h : m.keys_ (LossyArrayMap.slot H hN c.1) = c.1
  · rw [lossy_emplace_hit H hN m c.1 (-1) h]
    cases c.2 <;> simp
  · rw [lossy_emplace_miss H hN m c.1 (-1) h]
    cases c.2 <;> simp [LossyArrayMap.setSecond, Function.update_noteq hs]

theorem useAll_keys_origin (H : Hash) {kNumSlots : Nat} (hN : 0 < kNumSlots)
    (calls : List (Nat × Option Int)) (m : LossyArrayMap kNumSlots) (slot : Fin kNumSlots) :
    (LossyArrayMap.useAll H hN m calls).keys_ slot = m.keys_ slot ∨
      (LossyArrayMap.useAll H hN m calls).keys_ slot ∈ calls.map Prod.fst := by
  induction calls generalizing m with
  | nil => exact Or.inl rfl
  | cons c cs ih =>
    have hstep : LossyArrayMap.useAll H hN m (c :: cs) =
        LossyArrayMap.useAll H hN (LossyArrayMap.use H hN m c) cs := rfl
    rw [hstep]
    rcases ih (LossyArrayMap.use H hN m c) with h | h
    · rw [h, use_keys]
      by_cases hs : slot = LossyArrayMap.slot H hN c.1
      · rw [hs, Function.update_same]
        exact Or.inr (by simp)
      · rw [Function.update_noteq hs]
        exact Or.inl rfl
    · exact Or.inr (by simp only [List.map_cons, List.mem_cons]; exact Or.inr h)

theorem useAll_keeps (H : Hash) {kNumSlots : Nat} (hN : 0 < kNumSlots) (k : Nat)
    (calls : List (Nat × Option Int)) (m : LossyArrayMap kNumSlots)
    (hcalls : ∀ c ∈ calls, c.1 ≠ k → LossyArrayMap.slot H hN c.1 ≠ LossyArrayMap.slot H hN k)
    (hm : m.keys_ (LossyArrayMap.slot H hN k) = k) :
    (LossyArrayMap.useAll H hN m calls).keys_ (LossyArrayMap.slot H hN k) = k ∧
      (LossyArrayMap.useAll H hN m calls).vals_ (LossyArrayMap.slot H hN k) =
        m.vals_ (LossyArrayMap.slot H hN k) := by
  induction calls generalizing m with
  | nil => exact ⟨hm, rfl⟩
  | cons c cs ih =>
    have hstep : LossyArrayMap.useAll H hN m (c :: cs) =
        LossyArrayMap.useAll H hN (LossyArrayMap.use H hN m c) cs := rfl
    rw [hstep]
    have hcs : ∀ d ∈ cs, d.1 ≠ k →
        LossyArrayMap.slot H hN d.1 ≠ LossyArrayMap.slot H hN k :=
      fun d hd => hcalls d (List.mem_cons_of_mem _ hd)
    by_cases hck : c.1 = k
    · have hhit : m.keys_ (LossyArrayMap.slot H hN c.1) = c.1 := by rw [hck]; exact hm
      have hk2 : (LossyArrayMap.use H hN m c).keys_ (LossyArrayMap.slot H hN k) = k := by
        rw [use_keys, ← hck, Function.update_same]
      obtain ⟨h1, h2⟩ := ih (LossyArrayMap.use H hN m c) hcs hk2
      exact ⟨h1, by rw [h2, use_vals_hit H hN m c hhit]⟩
    · have hslot := hcalls c (List.mem_cons_self _ _) hck
      have hk2 : (LossyArrayMap.use H hN m c).keys_ (LossyArrayMap.slot H hN k) = k := by
        rw [use_keys, Function.update_noteq (Ne.symm hslot)]; exact hm
      obtain ⟨h1, h2⟩ := ih (LossyArrayMap.use H hN m c) hcs hk2
      refine ⟨h1, ?_⟩
      rw [h2, use_vals_other H hN m c _ (Ne.symm hslot)]

/-! ## Claims on the exact encoder -/

/-- C1: for every input whose total size is below `2^31`, the exact encoder returns as
buffer the concatenation, in order of first occurrence, of the bytes of the first value
carrying each distinct key, and as offset of each value the position at which the first
value with its key was appended. The values kept form a sublist of the input with pairwise
distinct keys covering every key, and the one kept for a key is the first with that key. -/
theorem C1_exact_first_occurrence (vals : List StringView) (h : totalBytes vals < 2 ^ 31) :
    DedupUnorderedMap vals =
      { out_buf := concatBytes (firstValues vals)
        offsets := vals.map (fun v => (appendPosition v.data (firstValues vals) : Int)) } ∧
    (firstValues vals).Sublist vals ∧
    (keysOf (firstValues vals)).Nodup ∧
    (∀ k, k ∈ keysOf (firstValues vals) ↔ k ∈ keysOf vals) ∧
    (∀ k, firstWithKey k (firstValues vals) = firstWithKey k vals) := by
  refine ⟨?_, firstOccurrences_sublist [] vals, nodup_keysOf_firstOccurrences [] vals,
    fun k => mem_keysOf_firstValues k vals, fun k => firstWithKey_firstValues k vals⟩
  rw [exact_output]
  congr 1
  apply List.map_congr_left
  intro v _
  apply toInt_of_lt
  have h1 := appendPosition_le v.data (firstValues vals)
  have h2 := totalBytes_firstValues_le vals
  omega

/-- C1, scenario: `["ab","cd","ab","ef","cd"]` gives buffer `"abcdef"` and offsets
`[0,2,0,4,2]`. -/
theorem C1_exact_first_occurrence_witness :
    totalBytes scenarioInput < 2 ^ 31 ∧
    DedupUnorderedMap scenarioInput =
      { out_buf := [97, 98, 99, 100, 101, 102], offsets := [0, 2, 0, 4, 2] } :=
  ⟨by decide, (C1_exact_first_occurrence scenarioInput (by decide)).1.trans (by decide)⟩

/-- C2, as stated, fails: when the buffer reaches `2^31` bytes the offset stored as `int`
wraps to a negative number, which designates no span of the buffer. -/
theorem C2_counterexample :
    SameKeySameBytes hugeInput ∧ ¬ ContentCorrect hugeInput (DedupUnorderedMap hugeInput) := by
  constructor
  · intro v hv w hw hvw
    simp only [hugeInput, List.mem_cons, List.mem_singleton, List.not_mem_nil, or_false] at hv hw
    rcases hv with rfl | rfl <;> rcases hw with rfl | rfl <;> simp_all
  · intro hc
    obtain ⟨o, ho, hspan⟩ := hc 1 (by simp [hugeInput])
    rw [exact_hugeInput] at ho
    simp only [List.getElem?_cons_succ, List.getElem?_cons_zero, Option.some.injEq] at ho
    subst ho
    exact absurd hspan.1 (by decide)

/-- C2, amended: for every input in which values sharing a key have identical bytes, and
every index `i`, `offsets[i]` of the exact encoder is the conversion to `int` of a buffer
position `p` whose span of the size of `values[i]` lies inside the final buffer and holds
the bytes of `values[i]`; whenever `p < 2^31` the span that starts at `offsets[i]` itself
does, and so it is for every `i` whenever the final buffer is shorter than `2^31` bytes. -/
theorem C2_exact_content_correct (vals : List StringView) (hsame : SameKeySameBytes vals) :
    (∀ i (hi : i < vals.length), ∃ p : Nat,
      (DedupUnorderedMap vals).offsets[i]? = some (toInt p) ∧
      SpanAt (DedupUnorderedMap vals).out_buf (p : Int) vals[i].bytes ∧
      (p < 2 ^ 31 → SpanAt (DedupUnorderedMap vals).out_buf (toInt p) vals[i].bytes)) ∧
    ((DedupUnorderedMap vals).out_buf.length < 2 ^ 31 →
      ContentCorrect vals (DedupUnorderedMap vals)) := by
  have hmain : ∀ i (hi : i < vals.length), ∃ p : Nat,
      (DedupUnorderedMap vals).offsets[i]? = some (toInt p) ∧
      SpanAt (DedupUnorderedMap vals).out_buf (p : Int) vals[i].bytes ∧
      (p < 2 ^ 31 → SpanAt (DedupUnorderedMap vals).out_buf (toInt p) vals[i].bytes) := by
    intro i hi
    have hmem : vals[i] ∈ vals := List.getElem_mem hi
    obtain ⟨w, hw, hwmem, hwk⟩ := firstWithKey_of_mem hmem rfl
    have hbytes : w.bytes = vals[i].bytes := hsame w hwmem _ hmem hwk
    have hw2 : firstWithKey vals[i].data (firstValues vals) = some w := by
      rw [firstWithKey_firstValues]; exact hw
    obtain ⟨hle, htake⟩ := span_firstWithKey _ _ _ hw2
    have hbuf : (DedupUnorderedMap vals).out_buf = concatBytes (firstValues vals) := by
      rw [exact_output]
    rw [hbytes] at hle htake
    have hspan : SpanAt (DedupUnorderedMap vals).out_buf
        ((appendPosition vals[i].data (firstValues vals) : Nat) : Int) vals[i].bytes := by
      refine ⟨Int.ofNat_zero_le _, ?_, ?_⟩
      · rw [Int.toNat_ofNat, hbuf, length_concatBytes]
        exact hle
      · rw [Int.toNat_ofNat, hbuf]
        exact htake
    exact ⟨_, getElem?_offsets_exact vals i hi, hspan, fun hlt => by
      rw [toInt_of_lt hlt]; exact hspan⟩
  refine ⟨hmain, fun hlen i hi => ?_⟩
  obtain ⟨p, ho, hspan, himp⟩ := hmain i hi
  refine ⟨_, ho, himp ?_⟩
  have h1 := hspan.2.1
  rw [Int.toNat_ofNat] at h1
  omega

/-- C2 at the scenario input. -/
theorem C2_exact_content_correct_witness :
    SameKeySameBytes scenarioInput ∧
      ContentCorrect scenarioInput (DedupUnorderedMap scenarioInput) :=
  have hs : SameKeySameBytes scenarioInput := by
    intro v hv w hw hvw
    simp only [scenarioInput, List.mem_cons, List.mem_singleton, List.not_mem_nil,
      or_false] at hv hw
    rcases hv with rfl | rfl | rfl | rfl | rfl <;>
      rcases hw with rfl | rfl | rfl | rfl | rfl <;> simp_all
  ⟨hs, (C2_exact_content_correct scenarioInput hs).2 (by decide)⟩

/-- C8: in the exact encoder, two values with the same key receive the same offset; and
the `emplace` of a key already present reports no insertion and leaves the map, hence the
stored offset, as it is. -/
theorem C8_exact_offset_reuse (vals : List StringView) (i j : Nat) (hi : i < vals.length)
    (hj : j < vals.length) (hkey : vals[i].data = vals[j].data) :
    (∃ o, (DedupUnorderedMap vals).offsets[i]? = some o ∧
      (DedupUnorderedMap vals).offsets[j]? = some o) ∧
    (∀ (m : UnorderedMap) (k : Nat) (x off : Int), m k = some x →
      UnorderedMap.emplace m k off = ((k, false), m)) := by
  refine ⟨⟨_, getElem?_offsets_exact vals i hi, ?_⟩, fun m k x off h => ?_⟩
  · rw [getElem?_offsets_exact vals j hj, hkey]
  · simp [UnorderedMap.emplace, h]

/-- C8 at the scenario input: the values numbered 0 and 2 share the key `10` and the
offset `0`. -/
theorem C8_exact_offset_reuse_witness :
    ∃ o, (DedupUnorderedMap scenarioInput).offsets[0]? = some o ∧
      (DedupUnorderedMap scenarioInput).offsets[2]? = some o :=
  (C8_exact_offset_reuse scenarioInput 0 2 (by decide) (by decide) (by decide)).1

/-! ## Claims on the lossy cache -/

/-- C3, as stated, fails: when the buffer reaches `2^31` bytes the offset stored as `int`
wraps to a negative number, also with the lossy cache. -/
theorem C3_counterexample :
    (∀ v ∈ hugeInput, v.data ≠ nullptr) ∧ SameKeySameBytes hugeInput ∧
      ¬ ContentCorrect hugeInput
        (DedupLossyArrayMap Hash.Identity four_pos (fun _ => 0) hugeInput) := by
  refine ⟨?_, ?_, ?_⟩
  · intro v hv
    simp only [hugeInput, List.mem_cons, List.mem_singleton, List.not_mem_nil, or_false] at hv
    rcases hv with rfl | rfl <;> simp [nullptr]
  · intro v hv w hw hvw
    simp only [hugeInput, List.mem_cons, List.mem_singleton, List.not_mem_nil, or_false] at hv hw
    rcases hv with rfl | rfl <;> rcases hw with rfl | rfl <;> simp_all
  · intro hc
    obtain ⟨o, ho, hspan⟩ := hc 1 (by simp [hugeInput])
    rw [lossy_hugeInput] at ho
    simp only [List.getElem?_cons_succ, List.getElem?_cons_zero, Option.some.injEq] at ho
    subst ho
    exact absurd hspan.1 (by decide)

/-- C3, amended: for every hash strategy, every slot count `kNumSlots >= 1` and every input
whose keys are not null and in which values sharing a key have identical bytes, every
recorded `offsets[i]` is the conversion to `int` of the position `p` at which a value not
later than `i` with the key of `values[i]` was appended, and the span of the final buffer
at `p` of the size of `values[i]` lies inside the buffer and holds the bytes of
`values[i]`; whenever `p < 2^31` the span that starts at `offsets[i]` itself does, and so
it is for every `i` whenever the final buffer is shorter than `2^31` bytes. -/
theorem C3_lossy_content_correct (H : Hash) {kNumSlots : Nat} (hN : 0 < kNumSlots)
    (garbage : Fin kNumSlots → Int) (vals : List StringView)
    (hnull : ∀ v ∈ vals, v.data ≠ nullptr) (hsame : SameKeySameBytes vals) :
    (∀ i (hi : i < vals.length), ∃ p : Nat,
      (DedupLossyArrayMap H hN garbage vals).offsets[i]? = some (toInt p) ∧
      (∃ j, j ≤ i ∧ (keysOf vals)[j]? = some vals[i].data ∧
        AppendedAt (LossyArrayMap.mapType H hN) (LossyArrayMap.init garbage) vals j (p : Int)) ∧
      SpanAt (DedupLossyArrayMap H hN garbage vals).out_buf (p : Int) vals[i].bytes ∧
      (p < 2 ^ 31 →
        SpanAt (DedupLossyArrayMap H hN garbage vals).out_buf (toInt p) vals[i].bytes)) ∧
    ((DedupLossyArrayMap H hN garbage vals).out_buf.length < 2 ^ 31 →
      ContentCorrect vals (DedupLossyArrayMap H hN garbage vals)) := by
  have hmain : ∀ i (hi : i < vals.length), ∃ p : Nat,
      (DedupLossyArrayMap H hN garbage vals).offsets[i]? = some (toInt p) ∧
      (∃ j, j ≤ i ∧ (keysOf vals)[j]? = some vals[i].data ∧
        AppendedAt (LossyArrayMap.mapType H hN) (LossyArrayMap.init garbage) vals j (p : Int)) ∧
      SpanAt (DedupLossyArrayMap H hN garbage vals).out_buf (p : Int) vals[i].bytes ∧
      (p < 2 ^ 31 →
        SpanAt (DedupLossyArrayMap H hN garbage vals).out_buf (toInt p) vals[i].bytes) := by
    intro i hi
    obtain ⟨p, ho, j, hji, hjk, happ⟩ := lossy_offsets_appended H hN garbage vals hnull i hi
    have hspan : SpanAt (DedupLossyArrayMap H hN garbage vals).out_buf (p : Int)
        vals[i].bytes := by
      obtain ⟨w, hw, hrest⟩ := happ
      have hspan := appendedAt_span _ _ vals j (p : Int) w ⟨w, hw, hrest⟩ hw
      have hjlt : j < vals.length := (List.getElem?_eq_some.mp hw).1
      have hwj : vals[j] = w := (List.getElem?_eq_some.mp hw).2
      have hkj : vals[j].data = vals[i].data := by
        have h1 : (keysOf vals)[j]? = some vals[j].data := by
          simp [keysOf, List.getElem?_map, List.getElem?_eq_getElem hjlt]
        exact Option.some.inj (h1.symm.trans hjk)
      have hbytes : w.bytes = vals[i].bytes := by
        rw [← hwj]
        exact hsame _ (List.getElem_mem hjlt) _ (List.getElem_mem hi) hkj
      rw [hbytes] at hspan
      exact hspan
    exact ⟨p, ho, ⟨j, hji, hjk, happ⟩, hspan, fun hlt => by
      rw [toInt_of_lt hlt]; exact hspan⟩
  refine ⟨hmain, fun hlen i hi => ?_⟩
  obtain ⟨p, ho, _, hspan, himp⟩ := hmain i hi
  refine ⟨_, ho, himp ?_⟩
  have h1 := hspan.2.1
  rw [Int.toNat_ofNat] at h1
  omega

/-- C3 at the scenario input, four slots, hashed by `Identity`. -/
theorem C3_lossy_content_correct_witness :
    ContentCorrect scenarioInput
      (DedupLossyArrayMap Hash.Identity four_pos (fun _ => -7) scenarioInput) :=
  (C3_lossy_content_correct Hash.Identity four_pos (fun _ => -7) scenarioInput (by decide)
    (by
      intro v hv w hw hvw
      simp only [scenarioInput, List.mem_cons, List.mem_singleton, List.not_mem_nil,
        or_false] at hv hw
      rcases hv with rfl | rfl | rfl | rfl | rfl <;>
        rcases hw with rfl | rfl | rfl | rfl | rfl <;> simp_all)).2 (by decide)

/-- C4, as stated, fails: there are no hash strategy, slot count, cache state and key for
which `emplace` reports `needs_insert = false` while the slot holds another key. -/
theorem C4_counterexample :
    ¬ ∃ (H : Hash) (kNumSlots : Nat) (hN : 0 < kNumSlots) (m : LossyArrayMap kNumSlots)
        (k : Nat) (off : Int),
      (LossyArrayMap.emplace H hN m k off).1.2 = false ∧
        m.keys_ (LossyArrayMap.slot H hN k) ≠ k := by
  rintro ⟨H, kNumSlots, hN, m, k, off, hflag, hne⟩
  have := (lossy_emplace_flag H hN m k off).mpr hne
  rw [hflag] at this
  exact Bool.false_ne_true this

/-- C4, amended: distinct keys are never treated as identical by the lossy cache. `emplace`
reports `needs_insert = false` exactly when the slot holds the very key emplaced. When the
slot of a key holds a different key, `emplace` reports `needs_insert = true` and stores
the new key in the slot, and the encoder appends the value at the end of the buffer and
records for it the size the buffer had at that moment, converted to `int`: that position
itself when it is below `2^31`, and in any case the position at which the bytes of the
value stand in the buffer, whatever offset the slot stored. -/
theorem C4_lossy_collision_inserts (H : Hash) {kNumSlots : Nat} (hN : 0 < kNumSlots)
    (s : LoopState (LossyArrayMap kNumSlots)) (v : StringView)
    (hcoll : s.cache.keys_ (LossyArrayMap.slot H hN v.data) ≠ v.data) :
    (∀ (m : LossyArrayMap kNumSlots) (k : Nat) (off : Int),
      (LossyArrayMap.emplace H hN m k off).1.2 = false ↔
        m.keys_ (LossyArrayMap.slot H hN k) = k) ∧
    (LossyArrayMap.emplace H hN s.cache v.data (-1)).1.2 = true ∧
    (LossyArrayMap.emplace H hN s.cache v.data (-1)).2.keys_ (LossyArrayMap.slot H hN v.data)
      = v.data ∧
    (DedupWithMap.step (LossyArrayMap.mapType H hN) s v).out_buf = s.out_buf ++ v.bytes ∧
    (DedupWithMap.step (LossyArrayMap.mapType H hN) s v).offsets =
      s.offsets ++ [toInt s.out_buf.length] ∧
    (s.out_buf.length < 2 ^ 31 →
      (DedupWithMap.step (LossyArrayMap.mapType H hN) s v).offsets =
        s.offsets ++ [(s.out_buf.length : Int)]) ∧
    SpanAt (DedupWithMap.step (LossyArrayMap.mapType H hN) s v).out_buf
      (s.out_buf.length : Int) v.bytes := by
  have hiff : ∀ (m : LossyArrayMap kNumSlots) (k : Nat) (off : Int),
      (LossyArrayMap.emplace H hN m k off).1.2 = false ↔
        m.keys_ (LossyArrayMap.slot H hN k) = k := by
    intro m k off
    by_cases h : m.keys_ (LossyArrayMap.slot H hN k) = k
    · rw [lossy_emplace_hit H hN m k off h]; simp [h]
    · rw [lossy_emplace_miss H hN m k off h]; simp [h]
  rw [lossy_step_miss H hN s v hcoll, lossy_emplace_miss H hN s.cache v.data (-1) hcoll]
  refine ⟨hiff, rfl, Function.update_same _ _ _, rfl, rfl, fun hlt => ?_, ?_⟩
  · show s.offsets ++ [toInt s.out_buf.length] = _
    rw [toInt_of_lt hlt]
  · refine ⟨Int.ofNat_zero_le _, ?_, ?_⟩
    · rw [Int.toNat_ofNat, List.length_append]
    · rw [Int.toNat_ofNat, List.drop_left]
      exact List.take_length _

/-- C4 at a cache of four slots hashed by `Identity` whose slot 0 holds the key `4`: the
value with key `8`, which maps to slot 0 as well, is appended and gets its own offset. -/
theorem C4_lossy_collision_inserts_witness :
    cacheWithKey4.keys_ (LossyArrayMap.slot Hash.Identity four_pos 8) = 4 ∧
    (DedupWithMap.step (LossyArrayMap.mapType Hash.Identity four_pos)
      { cache := cacheWithKey4, out_buf := [97], offsets := [0] } ⟨8, [98]⟩).out_buf
      = [97, 98] ∧
    (DedupWithMap.step (LossyArrayMap.mapType Hash.Identity four_pos)
      { cache := cacheWithKey4, out_buf := [97], offsets := [0] } ⟨8, [98]⟩).offsets
      = [0, 1] :=
  have h := C4_lossy_collision_inserts Hash.Identity four_pos
    { cache := cacheWithKey4, out_buf := [97], offsets := [0] } ⟨8, [98]⟩ (by decide)
  ⟨by decide, h.2.2.2.1, h.2.2.2.2.1.trans (by decide)⟩

/-- C5: for every hash strategy, slot count `kNumSlots >= 1`, cache state and key, `emplace`
probes the slot `hash(key) mod kNumSlots`, a valid index; it reports
`needs_insert = (keys[slot] != key)` on the state before the call; the iterator it returns
reads `keys[slot]` and `offsets[slot]` and writes `offsets[slot]`; and `keys[slot] = key`
holds afterwards. -/
theorem C5_lossy_emplace_contract (H : Hash) {kNumSlots : Nat} (hN : 0 < kNumSlots)
    (m : LossyArrayMap kNumSlots) (p : Nat) (off : Int) :
    ((LossyArrayMap.emplace H hN m p off).1.1 : Nat) = H.call p % kNumSlots ∧
    ((LossyArrayMap.emplace H hN m p off).1.1 : Nat) < kNumSlots ∧
    (LossyArrayMap.emplace H hN m p off).1.2 =
      decide (m.keys_ (LossyArrayMap.emplace H hN m p off).1.1 ≠ p) ∧
    LossyArrayMap.first (LossyArrayMap.emplace H hN m p off).2
        (LossyArrayMap.emplace H hN m p off).1.1 =
      (LossyArrayMap.emplace H hN m p off).2.keys_ (LossyArrayMap.slot H hN p) ∧
    LossyArrayMap.second (LossyArrayMap.emplace H hN m p off).2
        (LossyArrayMap.emplace H hN m p off).1.1 =
      m.vals_ (LossyArrayMap.slot H hN p) ∧
    (∀ x, (LossyArrayMap.setSecond (LossyArrayMap.emplace H hN m p off).2
        (LossyArrayMap.emplace H hN m p off).1.1 x).vals_ =
      Function.update m.vals_ (LossyArrayMap.slot H hN p) x) ∧
    (LossyArrayMap.emplace H hN m p off).2.keys_ (LossyArrayMap.slot H hN p) = p := by
  by_cases h : m.keys_ (LossyArrayMap.slot H hN p) = p
  · rw [lossy_emplace_hit H hN m p off h]
    refine ⟨rfl, (LossyArrayMap.slot H hN p).isLt, ?_, rfl, rfl, fun x => rfl, h⟩
    simp [h]
  · rw [lossy_emplace_miss H hN m p off h]
    refine ⟨rfl, (LossyArrayMap.slot H hN p).isLt, ?_, rfl, rfl, fun x => rfl,
      Function.update_same _ _ _⟩
    simp [h]

/-- C5 on a fresh cache of four slots hashed by `FNV1A_PY`, key `6`. -/
theorem C5_lossy_emplace_contract_witness :
    ((LossyArrayMap.emplace Hash.FNV1A_PY four_pos (LossyArrayMap.init (fun _ => 0)) 6
      (-1)).1.1 : Nat) = FNV1A_PY 6 % 4 ∧
    (LossyArrayMap.emplace Hash.FNV1A_PY four_pos (LossyArrayMap.init (fun _ => 0)) 6
      (-1)).1.2 = true :=
  have h := C5_lossy_emplace_contract Hash.FNV1A_PY four_pos (LossyArrayMap.init (fun _ => 0))
    6 (-1)
  ⟨h.1, h.2.2.1.trans (by decide)⟩

/-- C6, as stated, fails: on a freshly constructed cache the `emplace` of the null key,
which no earlier call has used, reports `needs_insert = false`. -/
theorem C6_counterexample :
    (LossyArrayMap.emplace Hash.Identity four_pos (LossyArrayMap.init (fun _ => 0)) nullptr
      (-1)).1.2 = false := by
  decide

/-- C6, amended: for every hash strategy, every slot count `kNumSlots >= 1` and every key
other than the null pointer, the `emplace` of a key that no earlier use of this cache has
emplaced reports `needs_insert = true`, on a fresh cache in particular. -/
theorem C6_lossy_new_key_inserts (H : Hash) {kNumSlots : Nat} (hN : 0 < kNumSlots)
    (garbage : Fin kNumSlots → Int) (calls : List (Nat × Option Int)) (k : Nat) (off : Int)
    (hk : k ≠ nullptr) (hnew : k ∉ calls.map Prod.fst) :
    (LossyArrayMap.emplace H hN
      (LossyArrayMap.useAll H hN (LossyArrayMap.init garbage) calls) k off).1.2 = true ∧
    (LossyArrayMap.emplace H hN (LossyArrayMap.init garbage) k off).1.2 = true := by
  constructor
  · rw [lossy_emplace_flag]
    intro hc
    rcases useAll_keys_origin H hN calls (LossyArrayMap.init garbage)
      (LossyArrayMap.slot H hN k) with h | h
    · rw [hc] at h
      exact hk h
    · rw [hc] at h
      exact hnew h
  · rw [lossy_emplace_flag]
    exact fun hc => hk hc.symm

/-- C6 on a cache of four slots hashed by `Crc32Shift`, after uses with the keys `5` and
`9`; the new key is `13`. -/
theorem C6_lossy_new_key_inserts_witness :
    (LossyArrayMap.emplace Hash.Crc32Shift four_pos
      (LossyArrayMap.useAll Hash.Crc32Shift four_pos (LossyArrayMap.init (fun _ => 0))
        [(5, some 0), (9, none)]) 13 (-1)).1.2 = true :=
  (C6_lossy_new_key_inserts Hash.Crc32Shift four_pos (fun _ => 0) [(5, some 0), (9, none)] 13
    (-1)
    (by decide) (by decide)).1

/-- C7: for every hash strategy, slot count `kNumSlots >= 1` and key `k`, once `emplace(k)`
has been called (the caller storing `x` when an insertion was needed), and after any
further sequence of `emplace` calls, each with or without the caller's store, none of
which has a key different from `k` that maps to the slot of `k`, a new `emplace(k)` reports
`needs_insert = false`, refers to the slot of `k`, leaves the cache as it is, and finds the
offset that slot had after the first call, which is `x` when that call inserted; an
`emplace(k)` right after an `emplace(k)` reports `needs_insert = false`. -/
theorem C7_lossy_no_false_negative (H : Hash) {kNumSlots : Nat} (hN : 0 < kNumSlots)
    (m : LossyArrayMap kNumSlots) (k : Nat) (x : Int) (calls : List (Nat × Option Int))
    (off off2 : Int)
    (hcalls : ∀ c ∈ calls, c.1 ≠ k →
      LossyArrayMap.slot H hN c.1 ≠ LossyArrayMap.slot H hN k) :
    LossyArrayMap.emplace H hN
        (LossyArrayMap.useAll H hN (LossyArrayMap.use H hN m (k, some x)) calls) k off2 =
      ((LossyArrayMap.slot H hN k, false),
        LossyArrayMap.useAll H hN (LossyArrayMap.use H hN m (k, some x)) calls) ∧
    LossyArrayMap.second
        (LossyArrayMap.useAll H hN (LossyArrayMap.use H hN m (k, some x)) calls)
        (LossyArrayMap.slot H hN k) =
      LossyArrayMap.second (LossyArrayMap.use H hN m (k, some x))
        (LossyArrayMap.slot H hN k) ∧
    ((LossyArrayMap.emplace H hN m k off).1.2 = true →
      LossyArrayMap.second (LossyArrayMap.use H hN m (k, some x))
        (LossyArrayMap.slot H hN k) = x) ∧
    (LossyArrayMap.emplace H hN
      (LossyArrayMap.useAll H hN (LossyArrayMap.emplace H hN m k off).2 calls) k off2).1 =
        (LossyArrayMap.slot H hN k, false) ∧
    (LossyArrayMap.emplace H hN (LossyArrayMap.emplace H hN m k off).2 k off2).1.2 = false := by
  have hk1 : (LossyArrayMap.use H hN m (k, some x)).keys_ (LossyArrayMap.slot H hN k) = k := by
    rw [use_keys, Function.update_same]
  have hk2 : (LossyArrayMap.emplace H hN m k off).2.keys_ (LossyArrayMap.slot H hN k) = k := by
    by_cases h : m.keys_ (LossyArrayMap.slot H hN k) = k
    · rw [lossy_emplace_hit H hN m k off h]; exact h
    · rw [lossy_emplace_miss H hN m k off h]; exact Function.update_same _ _ _
  obtain ⟨h1, h2⟩ := useAll_keeps H hN k calls _ hcalls hk1
  obtain ⟨h3, _⟩ := useAll_keeps H hN k calls _ hcalls hk2
  refine ⟨lossy_emplace_hit H hN _ k off2 h1, h2, ?_, ?_, ?_⟩
  · intro hflag
    have hmiss := (lossy_emplace_flag H hN m k off).mp hflag
    show (LossyArrayMap.use H hN m (k, some x)).vals_ _ = x
    rw [use_vals_miss H hN m k x hmiss, Function.update_same]
  · rw [lossy_emplace_hit H hN _ k off2 h3]
  · rw [lossy_emplace_hit H hN _ k off2 hk2]

/-- C7 on a fresh cache of four slots hashed by `Identity`: the key `4` is found again,
with its offset `7`, after uses with the keys `5`, `4` and `6`. -/
theorem C7_lossy_no_false_negative_witness :
    (LossyArrayMap.emplace Hash.Identity four_pos
      (LossyArrayMap.useAll Hash.Identity four_pos
        (LossyArrayMap.use Hash.Identity four_pos (LossyArrayMap.init (fun _ => 0))
          (4, some 7))
        [(5, some 1), (4, some 9), (6, none)]) 4 (-1)).1 =
      (LossyArrayMap.slot Hash.Identity four_pos 4, false) ∧
    LossyArrayMap.second
      (LossyArrayMap.useAll Hash.Identity four_pos
        (LossyArrayMap.use Hash.Identity four_pos (LossyArrayMap.init (fun _ => 0))
          (4, some 7))
        [(5, some 1), (4, some 9), (6, none)])
      (LossyArrayMap.slot Hash.Identity four_pos 4) = 7 :=
  have h := C7_lossy_no_false_negative Hash.Identity four_pos (LossyArrayMap.init (fun _ => 0))
    4 7 [(5, some 1), (4, some 9), (6, none)] (-1) (-1) (by decide)
  ⟨congrArg Prod.fst h.1, h.2.1.trans (h.2.2.1 (by decide))⟩

/-! ## Claims on every cache variant -/

/-- C9, as stated, fails in three ways: an empty value appended last gets the offset equal
to the buffer length (exact cache); a value with the null key is taken as present in the
fresh lossy cache, nothing is appended and the uninitialised `vals_` entry is recorded; and
an offset wraps to a negative number once the buffer has `2^31` bytes. -/
theorem C9_counterexample :
    ¬ OffsetsValid (DedupUnorderedMap emptyValueInput) ∧
    ¬ OffsetsValid (DedupLossyArrayMap Hash.Identity four_pos (fun _ => 5) nullKeyInput) ∧
    ¬ OffsetsValid (DedupUnorderedMap hugeInput) := by
  refine ⟨?_, ?_, ?_⟩
  · intro h
    have h0 : (0 : Int) ∈ (DedupUnorderedMap emptyValueInput).offsets := by decide
    exact absurd (h 0 h0).2 (by decide)
  · intro h
    have h5 : (5 : Int) ∈
        (DedupLossyArrayMap Hash.Identity four_pos (fun _ => 5) nullKeyInput).offsets := by
      decide
    exact absurd (h 5 h5).2 (by decide)
  · intro h
    rw [exact_hugeInput] at h
    exact absurd (h (-2147483648) (by simp)).1 (by decide)

/-- C9, amended: for every input whose values are all non-empty, every offset recorded by
the exact encoder, and, when no key is null, by the lossy encoder with any hash strategy
and any slot count `kNumSlots >= 1`, is the conversion to `int` of a position `p` with
`0 <= p < length of the final buffer`; so `0 <= offsets[i] < length of the final buffer`
holds whenever `p < 2^31`, and for every `i` whenever the final buffer has at most `2^31`
bytes. -/
theorem C9_offsets_valid (H : Hash) {kNumSlots : Nat} (hN : 0 < kNumSlots)
    (garbage : Fin kNumSlots → Int) (vals : List StringView)
    (hne : ∀ v ∈ vals, v.bytes ≠ []) :
    (OffsetsInside (DedupUnorderedMap vals) ∧
      ((DedupUnorderedMap vals).out_buf.length ≤ 2 ^ 31 →
        OffsetsValid (DedupUnorderedMap vals))) ∧
    ((∀ v ∈ vals, v.data ≠ nullptr) →
      OffsetsInside (DedupLossyArrayMap H hN garbage vals) ∧
      ((DedupLossyArrayMap H hN garbage vals).out_buf.length ≤ 2 ^ 31 →
        OffsetsValid (DedupLossyArrayMap H hN garbage vals))) := by
  have hvalid : ∀ out : Output, OffsetsInside out → out.out_buf.length ≤ 2 ^ 31 →
      OffsetsValid out := by
    intro out hin hlen o ho
    obtain ⟨p, _, hp, himp⟩ := hin o ho
    exact himp (by omega)
  have hinside : ∀ (out : Output) (o : Int) (p : Nat), o = toInt p → p < out.out_buf.length →
      ∃ q : Nat, o = toInt q ∧ q < out.out_buf.length ∧
        (q < 2 ^ 31 → 0 ≤ o ∧ o < (out.out_buf.length : Int)) := by
    intro out o p hop hp
    refine ⟨p, hop, hp, fun hlt => ?_⟩
    rw [hop, toInt_of_lt hlt]
    exact ⟨Int.ofNat_zero_le _, by exact_mod_cast hp⟩
  have hexact : OffsetsInside (DedupUnorderedMap vals) := by
    intro o ho
    have hbuf : (DedupUnorderedMap vals).out_buf.length = totalBytes (firstValues vals) := by
      rw [exact_output]; exact length_concatBytes _
    have ho2 := ho
    rw [exact_output] at ho2
    obtain ⟨v, hv, hvo⟩ := List.mem_map.mp ho2
    obtain ⟨w, hw, hwmem, _⟩ := firstWithKey_of_mem hv rfl
    have hw2 : firstWithKey v.data (firstValues vals) = some w := by
      rw [firstWithKey_firstValues]; exact hw
    obtain ⟨hle, _⟩ := span_firstWithKey _ _ _ hw2
    have hpos : 0 < w.bytes.length := List.length_pos.mpr (hne w hwmem)
    exact hinside _ o _ hvo.symm (by omega)
  refine ⟨⟨hexact, hvalid _ hexact⟩, fun hnull => ?_⟩
  have hlossy : OffsetsInside (DedupLossyArrayMap H hN garbage vals) := by
    intro o ho
    obtain ⟨i, hi, hio⟩ := List.getElem_of_mem ho
    have hlen : (DedupLossyArrayMap H hN garbage vals).offsets.length = vals.length :=
      loop_offsets_length _ _ vals
    have hi2 : i < vals.length := by omega
    obtain ⟨p, ho2, j, _, _, happ⟩ := lossy_offsets_appended H hN garbage vals hnull i hi2
    have hoo : o = toInt p := by
      rw [List.getElem?_eq_getElem hi, hio] at ho2
      exact Option.some.inj ho2
    obtain ⟨w, hw, hrest⟩ := happ
    have hspan := appendedAt_span _ _ vals j (p : Int) w ⟨w, hw, hrest⟩ hw
    have hwmem : w ∈ vals := by
      obtain ⟨hj, hjw⟩ := List.getElem?_eq_some.mp hw
      rw [← hjw]; exact List.getElem_mem hj
    have hpos : 0 < w.bytes.length := List.length_pos.mpr (hne w hwmem)
    have h1 := hspan.2.1
    rw [Int.toNat_ofNat] at h1
    refine hinside _ o p hoo ?_
    show p < (DedupWithMap.loop (LossyArrayMap.mapType H hN) (LossyArrayMap.init garbage)
      vals).out_buf.length
    omega
  exact ⟨hlossy, hvalid _ hlossy⟩

/-- C9 at the scenario input, four slots, hashed by `Identity`. -/
theorem C9_offsets_valid_witness :
    OffsetsValid (DedupUnorderedMap scenarioInput) ∧
    OffsetsValid (DedupLossyArrayMap Hash.Identity four_pos (fun _ => -1) scenarioInput) :=
  have h := C9_offsets_valid Hash.Identity four_pos (fun _ => -1) scenarioInput (by decide)
  ⟨h.1.2 (by decide), (h.2 (by decide)).2 (by decide)⟩

/-- C10: for every input, the buffer of the exact encoder, and that of the lossy encoder
with any hash strategy and any slot count `kNumSlots >= 1`, is at most as long as the
buffer of `NoDedup` on the same input, whose length is the sum of the sizes of all
values. -/
theorem C10_no_dedup_upper_bound (H : Hash) {kNumSlots : Nat} (hN : 0 < kNumSlots)
    (garbage : Fin kNumSlots → Int) (vals : List StringView) :
    (DedupUnorderedMap vals).out_buf.length ≤ (NoDedup vals).out_buf.length ∧
    (DedupLossyArrayMap H hN garbage vals).out_buf.length ≤ (NoDedup vals).out_buf.length ∧
    (NoDedup vals).out_buf.length = totalBytes vals := by
  have hno : (NoDedup vals).out_buf.length = totalBytes vals := by
    rw [noDedup_out_buf, length_concatBytes]
  rw [hno]
  exact ⟨loop_out_buf_length_le _ _ vals, loop_out_buf_length_le _ _ vals, rfl⟩

/-- C10 at an input whose keys `4` and `8` collide in a cache of four slots hashed by
`Identity`: 2 bytes with the exact cache, 3 with the lossy one, 3 without deduplication. -/
theorem C10_no_dedup_upper_bound_witness :
    (DedupUnorderedMap collidingInput).out_buf.length = 2 ∧
    (DedupLossyArrayMap Hash.Identity four_pos (fun _ => 0) collidingInput).out_buf.length = 3 ∧
    (NoDedup collidingInput).out_buf.length = 3 ∧
    (DedupLossyArrayMap Hash.Identity four_pos (fun _ => 0) collidingInput).out_buf.length ≤
      (NoDedup collidingInput).out_buf.length :=
  ⟨by decide, by decide, by decide,
    (C10_no_dedup_upper_bound Hash.Identity four_pos (fun _ => 0) collidingInput).2.1⟩

/-! ## Hash strategies -/

theorem xor_mod_two_pow (a b n : Nat) :
    (a ^^^ b) % 2 ^ n = (a % 2 ^ n) ^^^ (b % 2 ^ n) := by
  apply Nat.eq_of_testBit_eq
  intro i
  simp only [Nat.testBit_mod_two_pow, Nat.testBit_xor]
  by_cases h : i < n <;> simp [h]

theorem crc32c_bit_lt (c : Nat) (h : c < 2 ^ 32) : crc32c_bit c < 2 ^ 32 := by
  have h1 : c >>> 1 < 2 ^ 32 := by rw [Nat.shiftRight_eq_div_pow]; omega
  unfold crc32c_bit
  split
  · exact Nat.xor_lt_two_pow h1 (by decide)
  · exact h1

theorem crc32c_bit_iterate_lt (n c : Nat) (h : c < 2 ^ 32) : crc32c_bit^[n] c < 2 ^ 32 := by
  induction n with
  | zero => exact h
  | succ n ih => rw [Function.iterate_succ_apply']; exact crc32c_bit_lt _ ih

theorem crc32c_u8_lt (c b : Nat) (h : c < 2 ^ 32) (hb : b < 256) : crc32c_u8 c b < 2 ^ 32 :=
  crc32c_bit_iterate_lt 8 _ (Nat.xor_lt_two_pow h (by omega))

theorem mm_crc32_u64_lt (crc v : Nat) : _mm_crc32_u64 crc v < 2 ^ 32 := by
  unfold _mm_crc32_u64
  have key : ∀ (l : List Nat) (c : Nat), c < 2 ^ 32 →
      l.foldl (fun c i => crc32c_u8 c ((v >>> (8 * i)) % 256)) c < 2 ^ 32 := by
    intro l
    induction l with
    | nil => intro c hc; exact hc
    | cons i l ih =>
      intro c hc
      exact ih _ (crc32c_u8_lt _ _ hc (Nat.mod_lt _ (by decide)))
  exact key _ _ (Nat.mod_lt _ (by decide))

set_option maxRecDepth 100000 in
/-- The model of the checksum reproduces the check value of CRC-32C: the bytes of
`"123456789"`, accumulated from `0xFFFFFFFF` and inverted at the end, give `0xE3069283`. -/
theorem crc32c_check_value :
    (crc32c_u8 (_mm_crc32_u64 0xFFFFFFFF 0x3837363534333231) 0x39) ^^^ 0xFFFFFFFF
      = 0xE3069283 := by
  decide

/-- C15: for every key `k`, `Crc32(k)`, the checksum `_mm_crc32_u64(0, k)`, is below `2^32`,
and `Crc32Shift(k)` is `Crc32(k)` shifted right by 16 bits, hence below `2^16`. -/
theorem C15_crc32_hashes (k : Nat) :
    Crc32 k = _mm_crc32_u64 0 k ∧ Crc32 k < 2 ^ 32 ∧
    Crc32Shift k = Crc32 k >>> 16 ∧ Crc32Shift k < 2 ^ 16 := by
  have h := mm_crc32_u64_lt 0 k
  refine ⟨rfl, h, rfl, ?_⟩
  show _mm_crc32_u64 0 k >>> 16 < 2 ^ 16
  rw [Nat.shiftRight_eq_div_pow]
  omega

/-- C16: for every key `t`, with `m = ((14695981039346656037 XOR t) * 591798841) mod 2^64`
and `h = (m XOR (m >> 32)) mod 2^32`, which is the XOR of the low and the high 32-bit half
of `m`, `FNV1A_PY(t) = h XOR (h >> 16)`, and the result is below `2^32`. -/
theorem C16_fnv1a_py (t : Nat) :
    ∃ m h : Nat,
      m = ((14695981039346656037 ^^^ t) * 591798841) % 2 ^ 64 ∧
      h = (m ^^^ (m >>> 32)) % 2 ^ 32 ∧
      h = (m % 2 ^ 32) ^^^ (m / 2 ^ 32) ∧
      FNV1A_PY t = h ^^^ (h >>> 16) ∧
      FNV1A_PY t < 2 ^ 32 := by
  refine ⟨((14695981039346656037 ^^^ t) * 591798841) % 2 ^ 64, _, rfl, rfl, ?_, ?_, ?_⟩
  · have hm : ((14695981039346656037 ^^^ t) * 591798841) % 2 ^ 64 < 2 ^ 64 :=
      Nat.mod_lt _ (by decide)
    rw [xor_mod_two_pow, Nat.shiftRight_eq_div_pow]
    congr 1
    apply Nat.mod_eq_of_lt
    omega
  · simp only [FNV1A_PY, Nat.zero_xor]
  · simp only [FNV1A_PY, Nat.zero_xor]
    have hh : ∀ x : Nat, x % 2 ^ 32 < 2 ^ 32 := fun x => Nat.mod_lt _ (by decide)
    apply Nat.xor_lt_two_pow (hh _)
    rw [Nat.shiftRight_eq_div_pow]
    have := hh ((((14695981039346656037 ^^^ t) * 591798841) % 2 ^ 64) ^^^
      ((((14695981039346656037 ^^^ t) * 591798841) % 2 ^ 64) >>> 32))
    omega

/-! ## Frame and monotonicity -/

theorem lossy_step_keys (H : Hash) {kNumSlots : Nat} (hN : 0 < kNumSlots)
    (s : LoopState (LossyArrayMap kNumSlots)) (v : StringView) :
    (DedupWithMap.step (LossyArrayMap.mapType H hN) s v).cache.keys_ =
      Function.update s.cache.keys_ (LossyArrayMap.slot H hN v.data) v.data := by
  by_cases h : s.cache.keys_ (LossyArrayMap.slot H hN v.data) = v.data
  · rw [lossy_step_hit H hN s v h]
    funext x
    by_cases hx : x = LossyArrayMap.slot H hN v.data
    · rw [hx, Function.update_same]; exact h
    · rw [Function.update_noteq hx]
  · rw [lossy_step_miss H hN s v h]

/-- C20: `emplace` leaves every entry of `keys_` other than `keys_[slot]` and every entry
of `vals_` as it is; its result and the resulting state do not depend on the offset
argument; and when it reports `needs_insert = false` the whole cache is unchanged. -/
theorem C20_lossy_emplace_frame (H : Hash) {kNumSlots : Nat} (hN : 0 < kNumSlots)
    (m : LossyArrayMap kNumSlots) (p : Nat) (off off2 : Int) :
    (∀ s, s ≠ LossyArrayMap.slot H hN p →
      (LossyArrayMap.emplace H hN m p off).2.keys_ s = m.keys_ s) ∧
    (LossyArrayMap.emplace H hN m p off).2.vals_ = m.vals_ ∧
    LossyArrayMap.emplace H hN m p off = LossyArrayMap.emplace H hN m p off2 ∧
    ((LossyArrayMap.emplace H hN m p off).1.2 = false →
      (LossyArrayMap.emplace H hN m p off).2 = m) := by
  by_cases h : m.keys_ (LossyArrayMap.slot H hN p) = p
  · rw [lossy_emplace_hit H hN m p off h, lossy_emplace_hit H hN m p off2 h]
    exact ⟨fun _ _ => rfl, rfl, rfl, fun _ => rfl⟩
  · rw [lossy_emplace_miss H hN m p off h, lossy_emplace_miss H hN m p off2 h]
    exact ⟨fun s hs => Function.update_noteq hs _ _, rfl, rfl,
      fun hc => absurd hc (by simp)⟩

/-- C20 on the cache of four slots whose slot 0 holds the key `4`: the `emplace` of the key
`4` changes nothing, with either offset argument. -/
theorem C20_lossy_emplace_frame_witness :
    (LossyArrayMap.emplace Hash.Identity four_pos cacheWithKey4 4 (-1)).2 = cacheWithKey4 ∧
    LossyArrayMap.emplace Hash.Identity four_pos cacheWithKey4 4 (-1) =
      LossyArrayMap.emplace Hash.Identity four_pos cacheWithKey4 4 7 :=
  have h := C20_lossy_emplace_frame Hash.Identity four_pos cacheWithKey4 4 (-1) 7
  ⟨h.2.2.2 (by decide), h.2.2.1⟩

/-- C18: for every cache variant (any `MapType`, the exact and the lossy cache among them)
and all inputs `xs` and `ys`, the buffer and the offsets of the encoding of `xs` are
prefixes of the buffer and the offsets of the encoding of `xs ++ ys`, and the buffer does
not get shorter. -/
theorem C18_append_only {M It : Type} (T : MapType M It) (cache : M) (H : Hash)
    {kNumSlots : Nat} (hN : 0 < kNumSlots) (garbage : Fin kNumSlots → Int)
    (xs ys : List StringView) :
    ((DedupWithMap T cache xs).out_buf <+: (DedupWithMap T cache (xs ++ ys)).out_buf ∧
      (DedupWithMap T cache xs).offsets <+: (DedupWithMap T cache (xs ++ ys)).offsets ∧
      (DedupWithMap T cache xs).out_buf.length ≤
        (DedupWithMap T cache (xs ++ ys)).out_buf.length) ∧
    ((DedupUnorderedMap xs).out_buf <+: (DedupUnorderedMap (xs ++ ys)).out_buf ∧
      (DedupUnorderedMap xs).offsets <+: (DedupUnorderedMap (xs ++ ys)).offsets) ∧
    ((DedupLossyArrayMap H hN garbage xs).out_buf <+:
        (DedupLossyArrayMap H hN garbage (xs ++ ys)).out_buf ∧
      (DedupLossyArrayMap H hN garbage xs).offsets <+:
        (DedupLossyArrayMap H hN garbage (xs ++ ys)).offsets) := by
  have hb := loop_out_buf_prefix T cache xs ys
  have ho := loop_offsets_prefix T cache xs ys
  have hbE := loop_out_buf_prefix UnorderedMap.mapType UnorderedMap.empty xs ys
  have hoE := loop_offsets_prefix UnorderedMap.mapType UnorderedMap.empty xs ys
  have hbL := loop_out_buf_prefix (LossyArrayMap.mapType H hN) (LossyArrayMap.init garbage) xs ys
  have hoL := loop_offsets_prefix (LossyArrayMap.mapType H hN) (LossyArrayMap.init garbage) xs ys
  exact ⟨⟨hb, ho, hb.length_le⟩, ⟨hbE, hoE⟩, ⟨hbL, hoL⟩⟩

/-- C18 at the colliding input split after its first value, four slots hashed by
`Identity`. -/
theorem C18_append_only_witness :
    (DedupLossyArrayMap Hash.Identity four_pos (fun _ => 0) [⟨4, [97]⟩]).out_buf <+:
        (DedupLossyArrayMap Hash.Identity four_pos (fun _ => 0) collidingInput).out_buf ∧
      (DedupLossyArrayMap Hash.Identity four_pos (fun _ => 0) [⟨4, [97]⟩]).offsets <+:
        (DedupLossyArrayMap Hash.Identity four_pos (fun _ => 0) collidingInput).offsets :=
  (C18_append_only UnorderedMap.mapType UnorderedMap.empty Hash.Identity four_pos (fun _ => 0)
    [⟨4, [97]⟩] [⟨8, [98]⟩, ⟨4, [97]⟩]).2.2

theorem previousKey_take (vals : List StringView) (i : Nat) :
    previousKey (vals.take i) i = previousKey vals i := by
  cases i with
  | zero => rfl
  | succ j =>
    simp only [previousKey, keysOf, List.map_take, List.getD_eq_getElem?_getD]
    rw [List.getElem?_take_of_lt (Nat.lt_succ_self j)]

theorem single_slot_key (H : Hash) (garbage : Fin 1 → Int) (pre : List StringView)
    (s : Fin 1) :
    (DedupWithMap.loop (LossyArrayMap.mapType H Nat.one_pos) (LossyArrayMap.init garbage)
      pre).cache.keys_ s = previousKey pre pre.length := by
  induction pre using List.reverseRecOn with
  | nil => rfl
  | append_singleton pre v _ =>
    rw [loop_snoc, lossy_step_keys, Subsingleton.elim s (LossyArrayMap.slot H Nat.one_pos v.data),
      Function.update_same]
    simp [previousKey, keysOf, List.getD_eq_getElem?_getD]

/-- C13: with `kNumSlots = 1` and any hash strategy every key maps to slot 0; when value
number `i` is reached slot 0 holds the key of value `i - 1`, the empty marker for `i = 0`;
after value `i` it holds the key of value `i`; and value `i` is appended to the buffer if
and only if its key differs from the key found in slot 0. -/
theorem C13_single_slot (H : Hash) (garbage : Fin 1 → Int) (vals : List StringView) (i : Nat)
    (hi : i < vals.length) :
    (∀ k, (LossyArrayMap.slot H Nat.one_pos k : Nat) = 0) ∧
    (∀ s, (DedupWithMap.loop (LossyArrayMap.mapType H Nat.one_pos) (LossyArrayMap.init garbage)
      (vals.take i)).cache.keys_ s = previousKey vals i) ∧
    (∀ s, (DedupWithMap.loop (LossyArrayMap.mapType H Nat.one_pos) (LossyArrayMap.init garbage)
      (vals.take (i + 1))).cache.keys_ s = vals[i].data) ∧
    (LossyArrayMap.emplace H Nat.one_pos
      (DedupWithMap.loop (LossyArrayMap.mapType H Nat.one_pos) (LossyArrayMap.init garbage)
        (vals.take i)).cache vals[i].data (-1)).1.2 =
      decide (previousKey vals i ≠ vals[i].data) ∧
    (DedupLossyArrayMap H Nat.one_pos garbage (vals.take (i + 1))).out_buf =
      (DedupLossyArrayMap H Nat.one_pos garbage (vals.take i)).out_buf ++
        (if previousKey vals i ≠ vals[i].data then vals[i].bytes else []) := by
  have hlen : (vals.take i).length = i := List.length_take_of_le (Nat.le_of_lt hi)
  have hprev : ∀ s, (DedupWithMap.loop (LossyArrayMap.mapType H Nat.one_pos)
      (LossyArrayMap.init garbage) (vals.take i)).cache.keys_ s = previousKey vals i := by
    intro s
    rw [single_slot_key, hlen, previousKey_take]
  have htake : vals.take (i + 1) = vals.take i ++ [vals[i]] := by
    rw [List.take_succ, List.getElem?_eq_getElem hi]; rfl
  have hflag : (LossyArrayMap.emplace H Nat.one_pos
      (DedupWithMap.loop (LossyArrayMap.mapType H Nat.one_pos) (LossyArrayMap.init garbage)
        (vals.take i)).cache vals[i].data (-1)).1.2 =
      decide (previousKey vals i ≠ vals[i].data) := by
    unfold LossyArrayMap.emplace
    by_cases h : previousKey vals i = vals[i].data <;> simp [hprev, h]
  refine ⟨fun k => Nat.mod_one _, hprev, fun s => ?_, hflag, ?_⟩
  · rw [htake, loop_snoc, lossy_step_keys,
      Subsingleton.elim s (LossyArrayMap.slot H Nat.one_pos vals[i].data), Function.update_same]
  · show (DedupWithMap.loop _ _ (vals.take (i + 1))).out_buf = _
    rw [htake, loop_snoc, step_out_buf]
    show _ ++ (if (LossyArrayMap.emplace H Nat.one_pos _ vals[i].data (-1)).1.2 = true
      then _ else _) = _
    rw [hflag]
    simp only [decide_eq_true_eq]
    rfl

/-- C13 at the input with the keys `4, 8, 4`, hashed by `Crc32`, value number 1: slot 0
holds the key `4`, the key `8` differs, and the value is appended. -/
theorem C13_single_slot_witness :
    previousKey collidingInput 1 = 4 ∧
    (DedupLossyArrayMap Hash.Crc32 Nat.one_pos (fun _ => 0) (collidingInput.take 2)).out_buf =
      (DedupLossyArrayMap Hash.Crc32 Nat.one_pos (fun _ => 0) (collidingInput.take 1)).out_buf
        ++ [98] :=
  ⟨by decide,
    (C13_single_slot Hash.Crc32 (fun _ => 0) collidingInput 1 (by decide)).2.2.2.2⟩

/-! ## Counting appends -/

theorem countSteps_append {M It : Type} (T : MapType M It) (P : M → StringView → Bool)
    (s : LoopState M) (xs ys : List StringView) :
    DedupWithMap.countSteps T P s (xs ++ ys) =
      DedupWithMap.countSteps T P s xs +
        DedupWithMap.countSteps T P (xs.foldl (DedupWithMap.step T) s) ys := by
  induction xs generalizing s with
  | nil => simp [DedupWithMap.countSteps]
  | cons x xs ih =>
    show (if P s.cache x then 1 else 0) +
        DedupWithMap.countSteps T P (DedupWithMap.step T s x) (xs ++ ys) =
      (if P s.cache x then 1 else 0) + DedupWithMap.countSteps T P (DedupWithMap.step T s x) xs +
        DedupWithMap.countSteps T P (xs.foldl (DedupWithMap.step T) (DedupWithMap.step T s x)) ys
    rw [ih]
    omega

theorem countSteps_snoc {M It : Type} (T : MapType M It) (P : M → StringView → Bool) (c : M)
    (pre : List StringView) (v : StringView) :
    DedupWithMap.countSteps T P { cache := T.reserve c 16, out_buf := [], offsets := [] }
        (pre ++ [v]) =
      DedupWithMap.countSteps T P { cache := T.reserve c 16, out_buf := [], offsets := [] } pre +
        (if P (DedupWithMap.loop T c pre).cache v then 1 else 0) := by
  rw [countSteps_append]
  simp [DedupWithMap.countSteps, DedupWithMap.loop]

theorem appendCount_snoc {M It : Type} (T : MapType M It) (c : M) (pre : List StringView)
    (v : StringView) :
    DedupWithMap.appendCount T c (pre ++ [v]) =
      DedupWithMap.appendCount T c pre +
        (if (T.emplace (DedupWithMap.loop T c pre).cache v.data (-1)).1.2 = true
          then 1 else 0) := by
  unfold DedupWithMap.appendCount
  rw [countSteps_snoc]

theorem exact_emplace_flag (m : UnorderedMap) (k : Nat) (off : Int) :
    (UnorderedMap.emplace m k off).1.2 = true ↔ m k = none := by
  unfold UnorderedMap.emplace
  cases h : m k <;> simp

theorem exact_loop_flag (pre : List StringView) (v : StringView) :
    (UnorderedMap.mapType.emplace
      (DedupWithMap.loop UnorderedMap.mapType UnorderedMap.empty pre).cache v.data (-1)).1.2
        = true ↔ v.data ∉ keysOf pre := by
  show (UnorderedMap.emplace _ v.data (-1)).1.2 = true ↔ _
  rw [exact_emplace_flag, (exact_loop_spec pre).2.2 v.data]
  by_cases h : v.data ∈ keysOf pre <;> simp [h]

theorem exact_appendCount (vals : List StringView) :
    DedupWithMap.appendCount UnorderedMap.mapType UnorderedMap.empty vals =
      (firstValues vals).length := by
  induction vals using List.reverseRecOn with
  | nil => rfl
  | append_singleton pre v ih =>
    rw [appendCount_snoc, ih, firstValues_snoc]
    by_cases h : v.data ∈ keysOf pre
    · rw [if_neg (fun hc => (exact_loop_flag pre v).mp hc h), if_pos h]
      simp
    · rw [if_pos ((exact_loop_flag pre v).mpr h), if_neg h]
      simp

theorem length_firstValues (vals : List StringView) :
    (firstValues vals).length = numDistinctKeys vals := by
  have h1 : (keysOf (firstValues vals)).Nodup := nodup_keysOf_firstOccurrences [] vals
  have h2 : (keysOf (firstValues vals)).Perm (keysOf vals).dedup :=
    (List.perm_ext_iff_of_nodup h1 (List.nodup_dedup _)).mpr
      (fun k => by rw [mem_keysOf_firstValues, List.mem_dedup])
  have h3 := h2.length_eq
  simpa [keysOf, numDistinctKeys] using h3

theorem lossy_keys_origin (H : Hash) {kNumSlots : Nat} (hN : 0 < kNumSlots)
    (garbage : Fin kNumSlots → Int) (pre : List StringView) (s : Fin kNumSlots) :
    (DedupWithMap.loop (LossyArrayMap.mapType H hN) (LossyArrayMap.init garbage)
        pre).cache.keys_ s = nullptr ∨
      ((DedupWithMap.loop (LossyArrayMap.mapType H hN) (LossyArrayMap.init garbage)
          pre).cache.keys_ s ∈ keysOf pre ∧
        LossyArrayMap.slot H hN ((DedupWithMap.loop (LossyArrayMap.mapType H hN)
          (LossyArrayMap.init garbage) pre).cache.keys_ s) = s) := by
  induction pre using List.reverseRecOn with
  | nil => exact Or.inl rfl
  | append_singleton pre v ih =>
    have hk : keysOf (pre ++ [v]) = keysOf pre ++ [v.data] := by simp [keysOf]
    rw [loop_snoc, lossy_step_keys, hk]
    by_cases hs : s = LossyArrayMap.slot H hN v.data
    · rw [hs, Function.update_same]
      exact Or.inr ⟨by simp, rfl⟩
    · rw [Function.update_noteq hs]
      rcases ih with h | ⟨h1, h2⟩
      · exact Or.inl h
      · exact Or.inr ⟨List.mem_append_left _ h1, h2⟩

theorem lossy_flag_of_new_key (H : Hash) {kNumSlots : Nat} (hN : 0 < kNumSlots)
    (garbage : Fin kNumSlots → Int) (pre : List StringView) (v : StringView)
    (hnull : v.data ≠ nullptr) (hnew : v.data ∉ keysOf pre) :
    ((LossyArrayMap.mapType H hN).emplace
      (DedupWithMap.loop (LossyArrayMap.mapType H hN) (LossyArrayMap.init garbage) pre).cache
      v.data (-1)).1.2 = true := by
  show (LossyArrayMap.emplace H hN _ v.data (-1)).1.2 = true
  rw [lossy_emplace_flag]
  intro hc
  rcases lossy_keys_origin H hN garbage pre (LossyArrayMap.slot H hN v.data) with h | ⟨h, _⟩
  · exact hnull (hc ▸ h)
  · exact hnew (hc ▸ h)

/-- C12: for every hash strategy, slot count `kNumSlots >= 1` and input without null key,
the lossy encoder appends at least as many values as the exact encoder, which appends as
many values as the input has distinct keys. -/
theorem C12_lossy_not_less_than_exact (H : Hash) {kNumSlots : Nat} (hN : 0 < kNumSlots)
    (garbage : Fin kNumSlots → Int) (vals : List StringView)
    (hnull : ∀ v ∈ vals, v.data ≠ nullptr) :
    DedupWithMap.appendCount UnorderedMap.mapType UnorderedMap.empty vals ≤
      DedupWithMap.appendCount (LossyArrayMap.mapType H hN) (LossyArrayMap.init garbage) vals ∧
    DedupWithMap.appendCount UnorderedMap.mapType UnorderedMap.empty vals =
      numDistinctKeys vals := by
  refine ⟨?_, by rw [exact_appendCount, length_firstValues]⟩
  induction vals using List.reverseRecOn with
  | nil => exact Nat.le_refl _
  | append_singleton pre v ih =>
    have ih2 := ih (fun w hw => hnull w (List.mem_append_left _ hw))
    rw [appendCount_snoc, appendCount_snoc]
    by_cases h : v.data ∈ keysOf pre
    · rw [if_neg (fun hc => (exact_loop_flag pre v).mp hc h)]
      omega
    · rw [if_pos ((exact_loop_flag pre v).mpr h),
        if_pos (lossy_flag_of_new_key H hN garbage pre v (hnull v (by simp)) h)]
      omega

/-- C12 at the colliding input, four slots hashed by `Identity`: 3 appends with the lossy
cache, 2 with the exact cache, 2 distinct keys. -/
theorem C12_lossy_not_less_than_exact_witness :
    DedupWithMap.appendCount (LossyArrayMap.mapType Hash.Identity four_pos)
      (LossyArrayMap.init (fun _ => 0)) collidingInput = 3 ∧
    DedupWithMap.appendCount UnorderedMap.mapType UnorderedMap.empty collidingInput = 2 ∧
    numDistinctKeys collidingInput = 2 ∧
    DedupWithMap.appendCount UnorderedMap.mapType UnorderedMap.empty collidingInput ≤
      DedupWithMap.appendCount (LossyArrayMap.mapType Hash.Identity four_pos)
        (LossyArrayMap.init (fun _ => 0)) collidingInput :=
  ⟨by decide, by decide, by decide,
    (C12_lossy_not_less_than_exact Hash.Identity four_pos (fun _ => 0) collidingInput
      (by decide)).1⟩

/-! ## Inserts into empty slots and overwrites -/

theorem countInserts_split (H : Hash) {kNumSlots : Nat} (hN : 0 < kNumSlots)
    (vals : List StringView) (s : LoopState (LossyArrayMap kNumSlots))
    (w : List (Fin kNumSlots)) :
    DedupWithMap.countSteps (LossyArrayMap.mapType H hN)
        (fun m v => ((LossyArrayMap.mapType H hN).emplace m v.data (-1)).1.2) s vals =
      LossyArrayMap.countInserts H hN true s w vals +
        LossyArrayMap.countInserts H hN false s w vals := by
  induction vals generalizing s w with
  | nil => rfl
  | cons v vs ih =>
    simp only [DedupWithMap.countSteps, LossyArrayMap.countInserts]
    rw [ih (DedupWithMap.step (LossyArrayMap.mapType H hN) s v)
      (LossyArrayMap.writtenAfter H hN s.cache w v)]
    show (if (LossyArrayMap.emplace H hN s.cache v.data (-1)).1.2 = true then 1 else 0) + _ = _
    by_cases hf : (LossyArrayMap.emplace H hN s.cache v.data (-1)).1.2 = true
    · by_cases hw : (LossyArrayMap.emplace H hN s.cache v.data (-1)).1.1 ∈ w
      · simp [hf, hw]; omega
      · simp [hf, hw]; omega
    · simp [hf]

theorem countInserts_fresh_le (H : Hash) {kNumSlots : Nat} (hN : 0 < kNumSlots)
    (vals : List StringView) (s : LoopState (LossyArrayMap kNumSlots))
    (w : List (Fin kNumSlots)) :
    LossyArrayMap.countInserts H hN true s w vals ≤
      (((keysOf vals).toFinset.image (LossyArrayMap.slot H hN)) \ w.toFinset).card := by
  induction vals generalizing s w with
  | nil => exact Nat.zero_le _
  | cons v vs ih =>
    have hkeys : (keysOf (v :: vs)).toFinset.image (LossyArrayMap.slot H hN) =
        insert (LossyArrayMap.slot H hN v.data)
          ((keysOf vs).toFinset.image (LossyArrayMap.slot H hN)) := by
      simp [keysOf, Finset.image_insert]
    rw [hkeys]
    simp only [LossyArrayMap.countInserts, lossy_emplace_it]
    by_cases hf : (LossyArrayMap.emplace H hN s.cache v.data (-1)).1.2 = true
    · have hwa : LossyArrayMap.writtenAfter H hN s.cache w v =
          LossyArrayMap.slot H hN v.data :: w := by
        simp only [LossyArrayMap.writtenAfter, lossy_emplace_it, if_pos hf]
      rw [hwa]
      have hih := ih (DedupWithMap.step (LossyArrayMap.mapType H hN) s v)
        (LossyArrayMap.slot H hN v.data :: w)
      by_cases hw : LossyArrayMap.slot H hN v.data ∈ w
      · have h0 : ((LossyArrayMap.emplace H hN s.cache v.data (-1)).1.2 &&
            (decide (LossyArrayMap.slot H hN v.data ∉ w) == true)) = false := by
          simp [hw]
        rw [h0]
        simp only [Bool.false_eq_true, if_false, Nat.zero_add]
        refine hih.trans (Finset.card_le_card ?_)
        intro x hx
        simp only [Finset.mem_sdiff, Finset.mem_insert, List.toFinset_cons] at hx ⊢
        exact ⟨Or.inr hx.1, fun h => hx.2 (Or.inr h)⟩
      · have h1 : ((LossyArrayMap.emplace H hN s.cache v.data (-1)).1.2 &&
            (decide (LossyArrayMap.slot H hN v.data ∉ w) == true)) = true := by
          simp [hf, hw]
        rw [h1]
        simp only [if_true]
        have hnot : LossyArrayMap.slot H hN v.data ∉
            ((keysOf vs).toFinset.image (LossyArrayMap.slot H hN)) \
              (LossyArrayMap.slot H hN v.data :: w).toFinset := by
          simp
        have hsub : insert (LossyArrayMap.slot H hN v.data)
            (((keysOf vs).toFinset.image (LossyArrayMap.slot H hN)) \
              (LossyArrayMap.slot H hN v.data :: w).toFinset) ⊆
            insert (LossyArrayMap.slot H hN v.data)
              ((keysOf vs).toFinset.image (LossyArrayMap.slot H hN)) \ w.toFinset := by
          intro x hx
          simp only [Finset.mem_sdiff, Finset.mem_insert, List.toFinset_cons,
            List.mem_toFinset] at hx ⊢
          rcases hx with hx | hx
          · exact ⟨Or.inl hx, by rw [hx]; exact hw⟩
          · exact ⟨Or.inr hx.1, fun h => hx.2 (Or.inr h)⟩
        have hcard := Finset.card_le_card hsub
        rw [Finset.card_insert_of_not_mem hnot] at hcard
        omega
    · have hwa : LossyArrayMap.writtenAfter H hN s.cache w v = w := by
        simp only [LossyArrayMap.writtenAfter, if_neg hf]
      rw [hwa]
      have hih := ih (DedupWithMap.step (LossyArrayMap.mapType H hN) s v) w
      have h0 : ((LossyArrayMap.emplace H hN s.cache v.data (-1)).1.2 &&
          (decide (LossyArrayMap.slot H hN v.data ∉ w) == true)) = false := by
        simp [hf]
      rw [h0]
      simp only [Bool.false_eq_true, if_false, Nat.zero_add]
      refine hih.trans (Finset.card_le_card ?_)
      intro x hx
      simp only [Finset.mem_sdiff, Finset.mem_insert] at hx ⊢
      exact ⟨Or.inr hx.1, hx.2⟩

theorem insertsIntoEmpty_le (H : Hash) {kNumSlots : Nat} (hN : 0 < kNumSlots)
    (garbage : Fin kNumSlots → Int) (vals : List StringView) :
    LossyArrayMap.insertsIntoEmpty H hN garbage vals ≤ kNumSlots ∧
      LossyArrayMap.insertsIntoEmpty H hN garbage vals ≤ numDistinctKeys vals := by
  have h := countInserts_fresh_le H hN vals
    { cache := LossyArrayMap.init garbage, out_buf := [], offsets := [] } []
  rw [List.toFinset_nil, Finset.sdiff_empty] at h
  constructor
  · have h2 := Finset.card_le_univ ((keysOf vals).toFinset.image (LossyArrayMap.slot H hN))
    rw [Fintype.card_fin] at h2
    exact h.trans h2
  · calc LossyArrayMap.insertsIntoEmpty H hN garbage vals
        ≤ ((keysOf vals).toFinset.image (LossyArrayMap.slot H hN)).card := h
      _ ≤ (keysOf vals).toFinset.card := Finset.card_image_le
      _ = numDistinctKeys vals := List.card_toFinset _

theorem writtenFrom_append (H : Hash) {kNumSlots : Nat} (hN : 0 < kNumSlots)
    (xs ys : List StringView) (s : LoopState (LossyArrayMap kNumSlots))
    (w : List (Fin kNumSlots)) :
    LossyArrayMap.writtenFrom H hN s w (xs ++ ys) =
      LossyArrayMap.writtenFrom H hN
        (xs.foldl (DedupWithMap.step (LossyArrayMap.mapType H hN)) s)
        (LossyArrayMap.writtenFrom H hN s w xs) ys := by
  induction xs generalizing s w with
  | nil => rfl
  | cons x xs ih =>
    simp only [List.cons_append, LossyArrayMap.writtenFrom, List.foldl_cons]
    exact ih _ _

theorem unwritten_holds_marker (H : Hash) {kNumSlots : Nat} (hN : 0 < kNumSlots)
    (vals : List StringView) (s : LoopState (LossyArrayMap kNumSlots))
    (w : List (Fin kNumSlots)) (hs : ∀ sl, sl ∉ w → s.cache.keys_ sl = nullptr) :
    ∀ sl, sl ∉ LossyArrayMap.writtenFrom H hN s w vals →
      (vals.foldl (DedupWithMap.step (LossyArrayMap.mapType H hN)) s).cache.keys_ sl
        = nullptr := by
  induction vals generalizing s w with
  | nil => exact hs
  | cons v vs ih =>
    simp only [LossyArrayMap.writtenFrom, List.foldl_cons]
    apply ih
    intro sl hsl
    rw [lossy_step_keys]
    simp only [LossyArrayMap.writtenAfter, lossy_emplace_it] at hsl
    by_cases hf : (LossyArrayMap.emplace H hN s.cache v.data (-1)).1.2 = true
    · rw [if_pos hf] at hsl
      have hne : sl ≠ LossyArrayMap.slot H hN v.data := fun h => hsl (h ▸ List.mem_cons_self _ _)
      rw [Function.update_noteq hne]
      exact hs sl (fun h => hsl (List.mem_cons_of_mem _ h))
    · rw [if_neg hf] at hsl
      have hhit : s.cache.keys_ (LossyArrayMap.slot H hN v.data) = v.data := by
        by_contra hc
        exact hf ((lossy_emplace_flag H hN s.cache v.data (-1)).mpr hc)
      by_cases hsl2 : sl = LossyArrayMap.slot H hN v.data
      · rw [hsl2, Function.update_same, ← hhit]
        exact hs _ (hsl2 ▸ hsl)
      · rw [Function.update_noteq hsl2]
        exact hs sl hsl

/-- C19: for every hash strategy, slot count `kNumSlots >= 1` and input, the number of
values the lossy encoder appends is the number of inserts into a slot still holding the
empty marker (a slot no insert has written so far; such a slot holds the empty marker at
every moment of the pass) plus the number of inserts that overwrite a slot written before;
the first number is at most `min(kNumSlots, number of distinct keys)`, so the number of
appends is at most the number of distinct keys plus the number of overwrites. -/
theorem C19_lossy_append_bound (H : Hash) {kNumSlots : Nat} (hN : 0 < kNumSlots)
    (garbage : Fin kNumSlots → Int) (vals : List StringView) :
    DedupWithMap.appendCount (LossyArrayMap.mapType H hN) (LossyArrayMap.init garbage) vals =
      LossyArrayMap.insertsIntoEmpty H hN garbage vals +
        LossyArrayMap.overwrites H hN garbage vals ∧
    LossyArrayMap.insertsIntoEmpty H hN garbage vals ≤ min kNumSlots (numDistinctKeys vals) ∧
    DedupWithMap.appendCount (LossyArrayMap.mapType H hN) (LossyArrayMap.init garbage) vals ≤
      numDistinctKeys vals + LossyArrayMap.overwrites H hN garbage vals ∧
    (∀ (pre rest : List StringView) (sl : Fin kNumSlots), vals = pre ++ rest →
      sl ∉ LossyArrayMap.writtenSlots H hN garbage pre →
      (DedupWithMap.loop (LossyArrayMap.mapType H hN) (LossyArrayMap.init garbage)
        pre).cache.keys_ sl = nullptr) := by
  have hsplit : DedupWithMap.appendCount (LossyArrayMap.mapType H hN)
      (LossyArrayMap.init garbage) vals =
      LossyArrayMap.insertsIntoEmpty H hN garbage vals +
        LossyArrayMap.overwrites H hN garbage vals :=
    countInserts_split H hN vals
      { cache := LossyArrayMap.init garbage, out_buf := [], offsets := [] } []
  obtain ⟨h1, h2⟩ := insertsIntoEmpty_le H hN garbage vals
  refine ⟨hsplit, Nat.le_min.mpr ⟨h1, h2⟩, by omega, fun pre rest sl _ hsl => ?_⟩
  exact unwritten_holds_marker H hN pre
    { cache := LossyArrayMap.init garbage, out_buf := [], offsets := [] } []
    (fun _ _ => rfl) sl hsl

/-- C19 at the input that alternates the key `4` and the null key, four slots hashed by
`Identity`: 5 appends, of which 1 into a slot still holding the empty marker and 4
overwrites, with 2 distinct keys. -/
theorem C19_lossy_append_bound_witness :
    LossyArrayMap.insertsIntoEmpty Hash.Identity four_pos (fun _ => 0) nullAlternatingInput = 1 ∧
    LossyArrayMap.overwrites Hash.Identity four_pos (fun _ => 0) nullAlternatingInput = 4 ∧
    numDistinctKeys nullAlternatingInput = 2 ∧
    DedupWithMap.appendCount (LossyArrayMap.mapType Hash.Identity four_pos)
        (LossyArrayMap.init (fun _ => 0)) nullAlternatingInput ≤
      numDistinctKeys nullAlternatingInput +
        LossyArrayMap.overwrites Hash.Identity four_pos (fun _ => 0) nullAlternatingInput :=
  ⟨by decide, by decide, by decide,
    (C19_lossy_append_bound Hash.Identity four_pos (fun _ => 0) nullAlternatingInput).2.2.1⟩

/-! ## Equality in the no-dedup bound -/

theorem firstOccurrences_eq_of_totalBytes (seen : List Nat) (vals : List StringView)
    (hne : ∀ v ∈ vals, v.bytes ≠ [])
    (h : totalBytes (firstOccurrences seen vals) = totalBytes vals) :
    firstOccurrences seen vals = vals := by
  induction vals generalizing seen with
  | nil => rfl
  | cons v vs ih =>
    have hpos : 0 < v.bytes.length := List.length_pos.mpr (hne v (List.mem_cons_self _ _))
    have hvs : ∀ w ∈ vs, w.bytes ≠ [] := fun w hw => hne w (List.mem_cons_of_mem _ hw)
    unfold firstOccurrences at h ⊢
    by_cases hv : v.data ∈ seen
    · rw [if_pos hv] at h
      have hle := totalBytes_sublist (firstOccurrences_sublist seen vs)
      simp only [totalBytes] at h
      omega
    · rw [if_neg hv] at h ⊢
      simp only [totalBytes] at h
      rw [ih (v.data :: seen) hvs (by omega)]

theorem all_appended_of_length_eq {M It : Type} (T : MapType M It) (c : M)
    (vals : List StringView) (hne : ∀ v ∈ vals, v.bytes ≠ [])
    (h : (DedupWithMap.loop T c vals).out_buf.length = totalBytes vals) :
    DedupWithMap.appendCount T c vals = vals.length := by
  induction vals using List.reverseRecOn with
  | nil => rfl
  | append_singleton pre v ih =>
    have hpos : 0 < v.bytes.length := List.length_pos.mpr (hne v (by simp))
    have hle := loop_out_buf_length_le T c pre
    have hv : totalBytes [v] = v.bytes.length := by simp [totalBytes]
    rw [loop_snoc, step_out_buf, totalBytes_append, List.length_append, hv] at h
    rw [appendCount_snoc, List.length_append, List.length_singleton]
    by_cases hflag : (T.emplace (DedupWithMap.loop T c pre).cache v.data (-1)).1.2 = true
    · rw [if_pos hflag] at h ⊢
      rw [ih (fun w hw => hne w (List.mem_append_left _ hw)) (by omega)]
    · rw [if_neg hflag] at h
      simp only [List.length_nil] at h
      omega

/-- C11, as stated, fails: two empty values that share a key give the exact encoder a
buffer as long as the sum of the sizes, namely empty; and with the lossy cache of four
slots hashed by `Identity` the key `4`, evicted by the colliding key `8`, is appended
twice, so the buffer has the 3 bytes of the input although two values share a key. -/
theorem C11_counterexample :
    ((DedupUnorderedMap sharedEmptyInput).out_buf.length = totalBytes sharedEmptyInput ∧
      ¬ (keysOf sharedEmptyInput).Nodup) ∧
    ((DedupLossyArrayMap Hash.Identity four_pos (fun _ => 0) collidingInput).out_buf.length =
        totalBytes collidingInput ∧
      ¬ (keysOf collidingInput).Nodup) := by
  decide

/-- C11, amended: for every input whose values are all non-empty, if the final buffer is as
long as the sum of the sizes of all values, then every value was appended, with any cache
variant; with the exact cache this means that no two values of the input share a key. -/
theorem C11_equality_without_dedup {M It : Type} (T : MapType M It) (cache : M) (H : Hash)
    {kNumSlots : Nat} (hN : 0 < kNumSlots) (garbage : Fin kNumSlots → Int)
    (vals : List StringView) (hne : ∀ v ∈ vals, v.bytes ≠ []) :
    ((DedupWithMap T cache vals).out_buf.length = totalBytes vals →
      DedupWithMap.appendCount T cache vals = vals.length) ∧
    ((DedupLossyArrayMap H hN garbage vals).out_buf.length = totalBytes vals →
      DedupWithMap.appendCount (LossyArrayMap.mapType H hN) (LossyArrayMap.init garbage) vals
        = vals.length) ∧
    ((DedupUnorderedMap vals).out_buf.length = totalBytes vals → (keysOf vals).Nodup) := by
  refine ⟨all_appended_of_length_eq T cache vals hne,
    all_appended_of_length_eq _ _ vals hne, fun h => ?_⟩
  rw [exact_output] at h
  have h2 : totalBytes (firstOccurrences [] vals) = totalBytes vals := by
    rw [← length_concatBytes]; exact h
  have h3 := firstOccurrences_eq_of_totalBytes [] vals hne h2
  have h4 := nodup_keysOf_firstOccurrences [] vals
  rwa [h3] at h4

/-- C11 at the input `["ab","cd","ef"]` with three keys: the exact buffer has the 6 bytes of
the input, and the keys are pairwise distinct. -/
theorem C11_equality_without_dedup_witness :
    (DedupUnorderedMap distinctInput).out_buf.length = totalBytes distinctInput ∧
    (keysOf distinctInput).Nodup :=
  ⟨by decide,
    (C11_equality_without_dedup UnorderedMap.mapType UnorderedMap.empty Hash.Identity four_pos
      (fun _ => 0) distinctInput (by decide)).2.2 (by decide)⟩

/-! ## The lossy encoder without collisions -/

/-- Loop invariant of the lossy encoder on inputs without null key and without collision:
the buffer, the offsets and the entries of the keys seen are those of the exact encoder. -/
theorem lossy_loop_spec (H : Hash) {kNumSlots : Nat} (hN : 0 < kNumSlots)
    (garbage : Fin kNumSlots → Int) (pre : List StringView) :
    (∀ v ∈ pre, v.data ≠ nullptr) → NoCollision H hN pre →
    (DedupWithMap.loop (LossyArrayMap.mapType H hN) (LossyArrayMap.init garbage) pre).out_buf =
        concatBytes (firstValues pre) ∧
    (DedupWithMap.loop (LossyArrayMap.mapType H hN) (LossyArrayMap.init garbage) pre).offsets =
        pre.map (fun v => toInt (appendPosition v.data (firstValues pre))) ∧
    ∀ k ∈ keysOf pre,
      (DedupWithMap.loop (LossyArrayMap.mapType H hN) (LossyArrayMap.init garbage)
          pre).cache.keys_ (LossyArrayMap.slot H hN k) = k ∧
        (DedupWithMap.loop (LossyArrayMap.mapType H hN) (LossyArrayMap.init garbage)
          pre).cache.vals_ (LossyArrayMap.slot H hN k) =
          toInt (appendPosition k (firstValues pre)) := by
  induction pre using List.reverseRecOn with
  | nil =>
    intro _ _
    refine ⟨rfl, rfl, fun k hk => ?_⟩
    simp [keysOf] at hk
  | append_singleton pre v ih =>
    intro hnull hcoll
    have hcoll2 : NoCollision H hN pre := fun a ha b hb =>
      hcoll a (List.mem_append_left _ ha) b (List.mem_append_left _ hb)
    obtain ⟨hbuf, hoffs, hcache⟩ :=
      ih (fun w hw => hnull w (List.mem_append_left _ hw)) hcoll2
    have hvnull : v.data ≠ nullptr := hnull v (by simp)
    have hkeys : ∀ k, k ∈ keysOf (pre ++ [v]) ↔ k ∈ keysOf pre ∨ k = v.data := by
      intro k; simp [keysOf]
    rw [loop_snoc, firstValues_snoc]
    by_cases hk : v.data ∈ keysOf pre
    · obtain ⟨hkey, hval⟩ := hcache v.data hk
      rw [lossy_step_hit H hN _ _ hkey, if_pos hk, List.append_nil]
      refine ⟨hbuf, ?_, fun k hkin => ?_⟩
      · show _ ++ [_] = _
        rw [hoffs, hval, List.map_append, List.map_cons, List.map_nil]
      · rcases (hkeys k).mp hkin with h | h
        · exact hcache k h
        · rw [h]; exact hcache v.data hk
    · have hmiss : (DedupWithMap.loop (LossyArrayMap.mapType H hN) (LossyArrayMap.init garbage)
          pre).cache.keys_ (LossyArrayMap.slot H hN v.data) ≠ v.data :=
        (lossy_emplace_flag H hN _ v.data (-1)).mp
          (lossy_flag_of_new_key H hN garbage pre v hvnull hk)
      have hlen : (DedupWithMap.loop (LossyArrayMap.mapType H hN) (LossyArrayMap.init garbage)
          pre).out_buf.length = totalBytes (firstValues pre) := by
        rw [hbuf, length_concatBytes]
      have hpos : ∀ k, appendPosition k (firstValues pre ++ [v]) =
          if k ∈ keysOf pre then appendPosition k (firstValues pre)
          else totalBytes (firstValues pre) + appendPosition k [v] := by
        intro k
        rw [appendPosition_append]
        by_cases hkp : k ∈ keysOf pre
        · rw [if_pos ((mem_keysOf_firstValues k pre).mpr hkp), if_pos hkp]
        · rw [if_neg (fun h => hkp ((mem_keysOf_firstValues k pre).mp h)), if_neg hkp]
      have hv : appendPosition v.data [v] = 0 := by simp [appendPosition]
      rw [lossy_step_miss H hN _ _ hmiss, if_neg hk, hlen]
      refine ⟨?_, ?_, fun k hkin => ?_⟩
      · show _ ++ v.bytes = _
        rw [hbuf, concatBytes_append]
        simp [concatBytes]
      · show _ ++ [_] = _
        rw [hoffs, List.map_append, List.map_cons, List.map_nil, hpos v.data, if_neg hk, hv,
          Nat.add_zero]
        congr 1
        apply List.map_congr_left
        intro w hw
        have hwk : w.data ∈ keysOf pre := List.mem_map_of_mem _ hw
        rw [hpos w.data, if_pos hwk]
      · dsimp only
        rcases (hkeys k).mp hkin with h | h
        · have hne : LossyArrayMap.slot H hN k ≠ LossyArrayMap.slot H hN v.data := by
            intro hslot
            obtain ⟨w, hw, hwk⟩ := List.mem_map.mp h
            have := hcoll w (List.mem_append_left _ hw) v (by simp) (by rw [hwk]; exact hslot)
            exact hk (by rw [← this, hwk]; exact h)
          rw [Function.update_noteq hne, Function.update_noteq hne, hpos k, if_pos h]
          exact hcache k h
        · rw [h, Function.update_same, Function.update_same, hpos, if_neg hk, hv,
            Nat.add_zero]
          exact ⟨rfl, rfl⟩

/-- C17: for every hash strategy, slot count `kNumSlots >= 1` and input without null key
whose distinct keys are mapped to distinct slots, the lossy encoder returns the buffer and
the offsets of the exact encoder. -/
theorem C17_lossy_equals_exact (H : Hash) {kNumSlots : Nat} (hN : 0 < kNumSlots)
    (garbage : Fin kNumSlots → Int) (vals : List StringView)
    (hnull : ∀ v ∈ vals, v.data ≠ nullptr) (hcoll : NoCollision H hN vals) :
    DedupLossyArrayMap H hN garbage vals = DedupUnorderedMap vals := by
  obtain ⟨h1, h2, _⟩ := lossy_loop_spec H hN garbage vals hnull hcoll
  rw [exact_output]
  simp only [DedupLossyArrayMap, DedupWithMap, h1, h2]

/-- C17 at the input `["ab","cd","ef"]` with the keys `10`, `20` and `30`, which a cache
of eight slots hashed by `Identity` keeps in the slots 2, 4 and 6. -/
theorem C17_lossy_equals_exact_witness :
    NoCollision Hash.Identity (Nat.succ_pos 7) distinctInput ∧
    DedupLossyArrayMap Hash.Identity (Nat.succ_pos 7) (fun _ => -1) distinctInput =
      { out_buf := [97, 98, 99, 100, 101, 102], offsets := [0, 2, 4] } :=
  have hc : NoCollision Hash.Identity (Nat.succ_pos 7) distinctInput := by
    intro v hv w hw
    simp only [distinctInput, List.mem_cons, List.mem_singleton, List.not_mem_nil,
      or_false] at hv hw
    rcases hv with rfl | rfl | rfl <;> rcases hw with rfl | rfl | rfl <;> decide
  ⟨hc, (C17_lossy_equals_exact Hash.Identity (Nat.succ_pos 7) (fun _ => -1) distinctInput
    (by decide) hc).trans (by decide)⟩

end DedupeBench
